import Mathlib

set_option linter.unusedVariables false

/-!
Shallow embedding of `src/simulation.py`: the `Order` entity and the
`OrderBook` built on two `heapq` priority queues with lazy deletion.

Modelling conventions:
* Python floats (prices, timestamps) are used by the code only through
  exact comparison and negation, so they are modelled as rationals.
* Python `Order` objects are mutable and aliased (the map and the heaps
  reference the same object); object identity is modelled by an index
  (`ref`) into a memory list of `Order` records.
* Python exceptions are modelled by `PyErr`; a function that can raise
  returns the mutated-so-far state together with an `Except`/`Option`
  error component, mirroring where the `raise` happens.
* CPython `heapq.heappush` / `heappop` (`_siftdown` / `_siftup`) are
  translated operation by operation, including the partiality of tuple
  comparison: comparing two tuples whose first two components are equal
  falls through to comparing the `Order` objects, which raises
  `TypeError` unless the two objects are identical.
-/

/-- Python exception kinds raised on the modelled code paths. -/
inductive PyErr where
  | valueError
  | typeError
  | indexError
deriving DecidableEq, Repr

/-- The `Order` class of `simulation.py`: identity and economics fields
plus the mutable fill state.  Statuses and sides are the literal strings
the source uses. -/
structure Order where
  symbol : String
  side : String
  order_type : String
  quantity : Int
  price : Option ℚ
  order_id : String
  timestamp : ℚ
  filled_quantity : Int
  status : String
deriving DecidableEq, Repr

instance : Inhabited Order :=
  ⟨{ symbol := "", side := "", order_type := "", quantity := 0, price := none,
     order_id := "", timestamp := 0, filled_quantity := 0, status := "" }⟩

/-- `Order.__init__` of the source.  The `order_id` and `timestamp`
defaults (a fresh uuid, the current time) are externally supplied
services, so they are explicit arguments here.  Returns
`Except.error .valueError` exactly where the Python code raises
`ValueError`.  The test `price.getD 0 ≤ 0` is the literal translation of
`price is None or price <= 0` (an absent price defaults the test to
`0 ≤ 0`, which is the `None` branch).  `quantity` is a Python `int`,
modelled as `Int`, so `not isinstance(quantity, int) or quantity <= 0`
becomes `quantity ≤ 0`. -/
def Order.construct (symbol side order_type : String) (quantity : Int)
    (price : Option ℚ) (order_id : String) (timestamp : ℚ) :
    Except PyErr Order :=
  if ¬ (side = "BUY" ∨ side = "SELL") then .error .valueError
  else if ¬ (order_type = "LIMIT" ∨ order_type = "MARKET") then .error .valueError
  else if order_type = "LIMIT" ∧ price.getD 0 ≤ 0 then .error .valueError
  else
    let price := if order_type = "MARKET" then none else price
    if quantity ≤ 0 then .error .valueError
    else if symbol = "" then .error .valueError
    else .ok { symbol := symbol, side := side, order_type := order_type,
               quantity := quantity, price := price, order_id := order_id,
               timestamp := timestamp, filled_quantity := 0, status := "OPEN" }

/-- Property `remaining_quantity` of `Order`. -/
def Order.remaining_quantity (o : Order) : Int :=
  o.quantity - o.filled_quantity

/-- Property `is_filled` of `Order`. -/
def Order.is_filled (o : Order) : Prop :=
  o.remaining_quantity ≤ 0

instance (o : Order) : Decidable o.is_filled := by
  unfold Order.is_filled; infer_instance

/-- Method `Order.fill` of the source: no-op for a non-positive amount,
clamp to `remaining_quantity` on overshoot, then update
`filled_quantity` and recompute `status`. -/
def Order.fill (o : Order) (quantity_filled : Int) : Order :=
  if quantity_filled ≤ 0 then o
  else
    let quantity_filled :=
      if quantity_filled > o.remaining_quantity then o.remaining_quantity
      else quantity_filled
    let o' := { o with filled_quantity := o.filled_quantity + quantity_filled }
    if o'.is_filled then { o' with status := "FILLED" }
    else if o'.filled_quantity > 0 then { o' with status := "PARTIALLY_FILLED" }
    else o'

/-- Method `Order.cancel` of the source: set status to `CANCELLED`
unless the order is fully filled or already cancelled. -/
def Order.cancel (o : Order) : Order :=
  if ¬ o.is_filled ∧ o.status ≠ "CANCELLED" then { o with status := "CANCELLED" }
  else o

/-- Status test used all over `OrderBook`:
`status in ("OPEN", "PARTIALLY_FILLED")`. -/
def isLive (o : Order) : Prop :=
  o.status = "OPEN" ∨ o.status = "PARTIALLY_FILLED"

instance (o : Order) : Decidable (isLive o) := by
  unfold isLive; infer_instance

/-- A heap element: the tuple `(key price, timestamp, order)` the book
pushes; the order object is stored by reference. -/
structure Entry where
  p : ℚ
  t : ℚ
  ref : Nat
deriving DecidableEq, Repr

instance : Inhabited Entry := ⟨⟨0, 0, 0⟩⟩

/-- Python `<` on two heap tuples: lexicographic on the numeric
components; when both are equal, Python compares the `Order` objects,
which succeeds (with `False`) only when they are the identical object
and raises `TypeError` (`none`) otherwise, because `Order` defines no
ordering. -/
def pyLt (a b : Entry) : Option Bool :=
  if a.p ≠ b.p then some (decide (a.p < b.p))
  else if a.t ≠ b.t then some (decide (a.t < b.t))
  else if a.ref = b.ref then some false
  else none

/-- Intended total key order on heap tuples: by `p`, ties by `t`. -/
def keyLe (a b : Entry) : Prop :=
  a.p < b.p ∨ (a.p = b.p ∧ a.t ≤ b.t)

/-- Strict version of `keyLe`. -/
def keyLt (a b : Entry) : Prop :=
  a.p < b.p ∨ (a.p = b.p ∧ a.t < b.t)

instance (a b : Entry) : Decidable (keyLe a b) := by
  unfold keyLe; infer_instance

/-- Index of the parent of heap slot `j` (`(pos - 1) >> 1` in CPython). -/
def parentIdx (j : Nat) : Nat := (j - 1) / 2

/-- Loop of CPython `heapq._siftdown(heap, startpos, pos)` after reading
`newitem = heap[pos]`: walk up from `pos`, moving parents down while
`newitem < parent`, and place `newitem` at the final hole.  On a
`TypeError` from the comparison the heap is returned as mutated so far.
The structural `fuel` argument only bounds the iteration count; callers
pass `fuel = pos`, and since `pos` strictly decreases each iteration the
`fuel = 0` case is only reached with `pos = 0`, where it coincides with
the loop exit. -/
def siftdownGo (startpos : Nat) (newitem : Entry) :
    Nat → List Entry → Nat → List Entry × Option PyErr
  | fuel + 1, heap, pos =>
    if startpos < pos then
      let parentpos := parentIdx pos
      let parent := heap.getD parentpos default
      match pyLt newitem parent with
      | none => (heap, some .typeError)
      | some true => siftdownGo startpos newitem fuel (heap.set pos parent) parentpos
      | some false => (heap.set pos newitem, none)
    else (heap.set pos newitem, none)
  | 0, heap, pos => (heap.set pos newitem, none)

/-- CPython `heapq._siftdown`. -/
def siftdown (heap : List Entry) (startpos pos : Nat) : List Entry × Option PyErr :=
  siftdownGo startpos (heap.getD pos default) pos heap pos

/-- CPython `heapq.heappush`: append, then sift the new item up. -/
def heappush (heap : List Entry) (item : Entry) : List Entry × Option PyErr :=
  siftdown (heap ++ [item]) 0 heap.length

/-- Loop of CPython `heapq._siftup(heap, pos)` after reading
`newitem = heap[pos]`: bubble the smaller child up into the hole until a
leaf is reached, then place `newitem` there and sift it down toward the
root.  `some true` from the child comparison keeps the left child, as in
`if rightpos < endpos and not heap[childpos] < heap[rightpos]`.  The
structural `fuel` only bounds the iteration count; callers pass
`fuel = heap.length - pos`, and since `heap.length - pos` strictly
decreases each iteration the `fuel = 0` case is only reached once
`2*pos+1 ≥ heap.length`, where it coincides with the loop exit. -/
def siftupGo (startpos : Nat) (newitem : Entry) :
    Nat → List Entry → Nat → List Entry × Option PyErr
  | fuel + 1, heap, pos =>
    if 2 * pos + 1 < heap.length then
      if 2 * pos + 2 < heap.length then
        match pyLt (heap.getD (2 * pos + 1) default) (heap.getD (2 * pos + 2) default) with
        | none => (heap, some .typeError)
        | some true =>
            siftupGo startpos newitem fuel
              (heap.set pos (heap.getD (2 * pos + 1) default)) (2 * pos + 1)
        | some false =>
            siftupGo startpos newitem fuel
              (heap.set pos (heap.getD (2 * pos + 2) default)) (2 * pos + 2)
      else
        siftupGo startpos newitem fuel
          (heap.set pos (heap.getD (2 * pos + 1) default)) (2 * pos + 1)
    else siftdownGo startpos newitem pos (heap.set pos newitem) pos
  | 0, heap, pos => siftdownGo startpos newitem pos (heap.set pos newitem) pos

/-- CPython `heapq._siftup`. -/
def siftup (heap : List Entry) (pos : Nat) : List Entry × Option PyErr :=
  siftupGo pos (heap.getD pos default) (heap.length - pos) heap pos

/-- CPython `heapq.heappop`: remove the last element; if the heap is
still nonempty, record the root as the return value, move the last
element into the root and sift it up.  Returns the new heap and the
popped element. -/
def heappop (heap : List Entry) : (List Entry × Entry) × Option PyErr :=
  match heap with
  | [] => (([], default), some .indexError)
  | _ :: _ =>
    let lastelt := heap.getLast?.getD default
    let rest := heap.dropLast
    if rest = [] then ((rest, lastelt), none)
    else
      let returnitem := rest.getD 0 default
      match siftup (rest.set 0 lastelt) 0 with
      | (h', none) => ((h', returnitem), none)
      | (h', some e) => ((h', returnitem), some e)

/-- Memory of order objects; a `ref` is an index into this list. -/
abbrev Memory := List Order

/-- Dereference an order object. -/
def memGet (mem : Memory) (r : Nat) : Order :=
  mem.getD r default

/-- In-place mutation of an order object. -/
def memSet (mem : Memory) (r : Nat) (o : Order) : Memory :=
  mem.set r o

/-- Python dict lookup on the insertion-ordered `_orders_map`. -/
def lookupId (m : List (String × Nat)) (k : String) : Option Nat :=
  match m with
  | [] => none
  | pr :: rest => if pr.1 = k then some pr.2 else lookupId rest k

/-- Python `dict.pop` / `del`: drop the entry with the given key. -/
def eraseId (m : List (String × Nat)) (k : String) : List (String × Nat) :=
  match m with
  | [] => []
  | pr :: rest => if pr.1 = k then rest else pr :: eraseId rest k

/-- The `OrderBook` class: one symbol, the two `heapq` lists and the
`_orders_map` lookup table. -/
structure OrderBook where
  symbol : String
  bids : List Entry
  asks : List Entry
  orders_map : List (String × Nat)
deriving DecidableEq, Repr

/-- `OrderBook.__init__`: validates the symbol. -/
def OrderBook.init (symbol : String) : Except PyErr OrderBook :=
  if symbol = "" then .error .valueError
  else .ok { symbol := symbol, bids := [], asks := [], orders_map := [] }

/-- `OrderBook.add_order`.  Raises `ValueError` on a symbol mismatch;
returns `none` (rejection) for a non-LIMIT order, a non-live status, or
a duplicate id bound to a different object; returns the order itself
when the identical live object is re-added.  On admission the order goes
into the map and is pushed onto the side heap; bids are pushed with the
negated price.  A `TypeError` out of `heappush` propagates after the map
was already updated, exactly as in the source. -/
def OrderBook.add_order (b : OrderBook) (mem : Memory) (r : Nat) :
    OrderBook × Except PyErr (Option Nat) :=
  let o := memGet mem r
  if o.symbol ≠ b.symbol then (b, .error .valueError)
  else if o.order_type ≠ "LIMIT" then (b, .ok none)
  else if ¬ isLive o then (b, .ok none)
  else
    match lookupId b.orders_map o.order_id with
    | some r' => if r' = r then (b, .ok (some r)) else (b, .ok none)
    | none =>
      let b' := { b with orders_map := b.orders_map ++ [(o.order_id, r)] }
      if o.side = "BUY" then
        match heappush b'.bids ⟨-(o.price.getD 0), o.timestamp, r⟩ with
        | (h', none) => ({ b' with bids := h' }, .ok (some r))
        | (h', some e) => ({ b' with bids := h' }, .error e)
      else if o.side = "SELL" then
        match heappush b'.asks ⟨o.price.getD 0, o.timestamp, r⟩ with
        | (h', none) => ({ b' with asks := h' }, .ok (some r))
        | (h', some e) => ({ b' with asks := h' }, .error e)
      else (b', .ok (some r))

/-- `OrderBook.remove_order`: pop the id from the map and `cancel()` the
object; the heap entries are left in place (lazy deletion).  Returns
`none` when the id is unknown. -/
def OrderBook.remove_order (b : OrderBook) (mem : Memory) (order_id : String) :
    OrderBook × Memory × Option Nat :=
  match lookupId b.orders_map order_id with
  | none => (b, mem, none)
  | some r =>
    ({ b with orders_map := eraseId b.orders_map order_id },
     memSet mem r (Order.cancel (memGet mem r)),
     some r)

/-- `OrderBook.get_order`: pure map lookup. -/
def OrderBook.get_order (b : OrderBook) (order_id : String) : Option Nat :=
  lookupId b.orders_map order_id

/-- Loop of `OrderBook._clean_heap_top`: pop heap tops whose order is no
longer live.  The fuel argument is the initial heap length, which
bounds the number of iterations because every `heappop` shortens the
heap by one; when the fuel runs out the heap is empty and the loop
would stop anyway. -/
def cleanGo (mem : Memory) : Nat → List Entry → List Entry × Option PyErr
  | 0, heap => (heap, none)
  | fuel + 1, heap =>
    if heap ≠ [] ∧ ¬ isLive (memGet mem (heap.getD 0 default).ref) then
      match heappop heap with
      | ((h', _), none) => cleanGo mem fuel h'
      | ((h', _), some e) => (h', some e)
    else (heap, none)

/-- `OrderBook._clean_heap_top`. -/
def clean_heap_top (mem : Memory) (heap : List Entry) : List Entry × Option PyErr :=
  cleanGo mem heap.length heap

/-- `OrderBook.get_best_bid`: clean the bid heap top, then report the
negated top key, or `None` on an empty heap. -/
def OrderBook.get_best_bid (b : OrderBook) (mem : Memory) :
    OrderBook × Except PyErr (Option ℚ) :=
  match clean_heap_top mem b.bids with
  | (h', some e) => ({ b with bids := h' }, .error e)
  | (h', none) =>
    ({ b with bids := h' },
     .ok (if h' = [] then none else some (-(h'.getD 0 default).p)))

/-- `OrderBook.get_best_ask`. -/
def OrderBook.get_best_ask (b : OrderBook) (mem : Memory) :
    OrderBook × Except PyErr (Option ℚ) :=
  match clean_heap_top mem b.asks with
  | (h', some e) => ({ b with asks := h' }, .error e)
  | (h', none) =>
    ({ b with asks := h' },
     .ok (if h' = [] then none else some (h'.getD 0 default).p))

/-- `OrderBook.pop_best_bid_order`: clean, pop the top entry, and delete
the popped order id from the map if still present. -/
def OrderBook.pop_best_bid_order (b : OrderBook) (mem : Memory) :
    OrderBook × Except PyErr (Option Nat) :=
  match clean_heap_top mem b.bids with
  | (h', some e) => ({ b with bids := h' }, .error e)
  | (h', none) =>
    if h' = [] then ({ b with bids := h' }, .ok none)
    else
      match heappop h' with
      | ((h'', ret), none) =>
        let oid := (memGet mem ret.ref).order_id
        let m' := if (lookupId b.orders_map oid).isSome then eraseId b.orders_map oid
                  else b.orders_map
        ({ b with bids := h'', orders_map := m' }, .ok (some ret.ref))
      | ((h'', _), some e) => ({ b with bids := h'' }, .error e)

/-- `OrderBook.pop_best_ask_order`. -/
def OrderBook.pop_best_ask_order (b : OrderBook) (mem : Memory) :
    OrderBook × Except PyErr (Option Nat) :=
  match clean_heap_top mem b.asks with
  | (h', some e) => ({ b with asks := h' }, .error e)
  | (h', none) =>
    if h' = [] then ({ b with asks := h' }, .ok none)
    else
      match heappop h' with
      | ((h'', ret), none) =>
        let oid := (memGet mem ret.ref).order_id
        let m' := if (lookupId b.orders_map oid).isSome then eraseId b.orders_map oid
                  else b.orders_map
        ({ b with asks := h'', orders_map := m' }, .ok (some ret.ref))
      | ((h'', _), some e) => ({ b with asks := h'' }, .error e)

/-- Actions an external caller may apply to an order object it holds
before handing it to the book: `some a` is `fill a`, `none` is
`cancel()`. -/
def applyOps (o : Order) : List (Option Int) → Order
  | [] => o
  | some a :: rest => applyOps (o.fill a) rest
  | none :: rest => applyOps o.cancel rest

/-- One successfully returning book operation, as observed by a caller:
constructing a new order object (possibly filled or cancelled by the
caller before it reaches the book), `add_order`, `remove_order`,
`get_best_bid` / `get_best_ask` (which mutate the heaps by lazy
cleanup), and `pop_best_bid_order` / `pop_best_ask_order`.
`get_order` does not change the state.  Operations that raise are not
steps. -/
inductive Step : OrderBook → Memory → OrderBook → Memory → Prop where
  | newOrder : ∀ b mem sy si ot q pr oid ts o ops,
      Order.construct sy si ot q pr oid ts = .ok o →
      Step b mem b (mem ++ [applyOps o ops])
  | add : ∀ b mem r b' res,
      OrderBook.add_order b mem r = (b', .ok res) →
      Step b mem b' mem
  | remove : ∀ b mem oid b' mem' res,
      OrderBook.remove_order b mem oid = (b', mem', res) →
      Step b mem b' mem'
  | bestBid : ∀ b mem b' res,
      OrderBook.get_best_bid b mem = (b', .ok res) →
      Step b mem b' mem
  | bestAsk : ∀ b mem b' res,
      OrderBook.get_best_ask b mem = (b', .ok res) →
      Step b mem b' mem
  | popBid : ∀ b mem b' res,
      OrderBook.pop_best_bid_order b mem = (b', .ok res) →
      Step b mem b' mem
  | popAsk : ∀ b mem b' res,
      OrderBook.pop_best_ask_order b mem = (b', .ok res) →
      Step b mem b' mem

/-- Reflexive-transitive closure of `Step`. -/
inductive Steps : OrderBook → Memory → OrderBook → Memory → Prop where
  | refl : ∀ b mem, Steps b mem b mem
  | tail : ∀ {b mem b' mem' b'' mem''},
      Steps b mem b' mem' → Step b' mem' b'' mem'' → Steps b mem b'' mem''

/-- Book states reachable from a freshly constructed book by successful
operations. -/
inductive Reachable : OrderBook → Memory → Prop where
  | init : ∀ sym b, OrderBook.init sym = .ok b → Reachable b []
  | step : ∀ {b mem b' mem'},
      Reachable b mem → Step b mem b' mem' → Reachable b' mem'

/-- Well-formedness facts holding of every order object in circulation:
true of a freshly constructed order and preserved by `fill` and
`cancel`. -/
def OrderWf (o : Order) : Prop :=
  (o.side = "BUY" ∨ o.side = "SELL") ∧
  (o.order_type = "LIMIT" → ∃ p, o.price = some p ∧ 0 < p) ∧
  (o.status = "OPEN" ∨ o.status = "PARTIALLY_FILLED" ∨ o.status = "FILLED" ∨
    o.status = "CANCELLED") ∧
  0 < o.quantity ∧ 0 ≤ o.filled_quantity ∧ o.filled_quantity ≤ o.quantity ∧
  (o.status = "OPEN" → o.filled_quantity = 0) ∧
  (o.status = "PARTIALLY_FILLED" →
    0 < o.filled_quantity ∧ o.filled_quantity < o.quantity) ∧
  (o.status = "FILLED" → o.filled_quantity = o.quantity)

/-- Binary-heap invariant of a `heapq` list with respect to the key
order. -/
def HeapInv (l : List Entry) : Prop :=
  ∀ j, 0 < j → j < l.length →
    keyLe (l.getD (parentIdx j) default) (l.getD j default)

/-- Coupling between a heap entry and the order object it references;
`neg = true` on the bid side, where prices are stored negated. -/
def EntryWf (mem : Memory) (sideVal : String) (neg : Bool) (e : Entry) : Prop :=
  e.ref < mem.length ∧
  (memGet mem e.ref).side = sideVal ∧
  (memGet mem e.ref).order_type = "LIMIT" ∧
  (∃ p, (memGet mem e.ref).price = some p ∧ 0 < p ∧
    e.p = if neg then -p else p) ∧
  e.t = (memGet mem e.ref).timestamp

/-- Boolean liveness of the order referenced by a heap entry. -/
def liveRef (mem : Memory) (e : Entry) : Bool :=
  decide (isLive (memGet mem e.ref))

/-- Internal consistency of a book state, established for all reachable
states: the map keys are unique and point at live LIMIT orders of the
book symbol; heap entries are well-keyed; both heaps satisfy the heap
invariant; an entry whose order is live is registered in the map under
its id; every mapped order has an entry on its side heap; and distinct
live heap entries reference distinct objects. -/
structure BookInv (b : OrderBook) (mem : Memory) : Prop where
  symbol_ne : b.symbol ≠ ""
  mem_wf : ∀ o ∈ mem, OrderWf o
  map_keys_nodup : (b.orders_map.map Prod.fst).Nodup
  map_wf : ∀ pr ∈ b.orders_map, pr.2 < mem.length ∧
    (memGet mem pr.2).order_id = pr.1 ∧ isLive (memGet mem pr.2) ∧
    (memGet mem pr.2).symbol = b.symbol ∧ (memGet mem pr.2).order_type = "LIMIT"
  bids_wf : ∀ e ∈ b.bids, EntryWf mem "BUY" true e
  asks_wf : ∀ e ∈ b.asks, EntryWf mem "SELL" false e
  bids_heap : HeapInv b.bids
  asks_heap : HeapInv b.asks
  live_in_map : ∀ e, (e ∈ b.bids ∨ e ∈ b.asks) → isLive (memGet mem e.ref) →
    lookupId b.orders_map (memGet mem e.ref).order_id = some e.ref
  bid_covered : ∀ pr ∈ b.orders_map, (memGet mem pr.2).side = "BUY" →
    ∃ e ∈ b.bids, e.ref = pr.2
  ask_covered : ∀ pr ∈ b.orders_map, (memGet mem pr.2).side = "SELL" →
    ∃ e ∈ b.asks, e.ref = pr.2
  bids_live_nodup : ((b.bids.filter (liveRef mem)).map Entry.ref).Nodup
  asks_live_nodup : ((b.asks.filter (liveRef mem)).map Entry.ref).Nodup

/-- Price of the order object behind `r` (0 if absent, which cannot
happen for an admitted LIMIT order). -/
def priceOf (mem : Memory) (r : Nat) : ℚ :=
  (memGet mem r).price.getD 0

/-- Timestamp of the order object behind `r`. -/
def tsOf (mem : Memory) (r : Nat) : ℚ :=
  (memGet mem r).timestamp

/-- The object `r` is a live bid of the book: live status, BUY side, and
registered in the lookup table under its id. -/
def IsLiveBidIn (b : OrderBook) (mem : Memory) (r : Nat) : Prop :=
  isLive (memGet mem r) ∧ (memGet mem r).side = "BUY" ∧
    lookupId b.orders_map (memGet mem r).order_id = some r

/-- The object `r` is a live ask of the book. -/
def IsLiveAskIn (b : OrderBook) (mem : Memory) (r : Nat) : Prop :=
  isLive (memGet mem r) ∧ (memGet mem r).side = "SELL" ∧
    lookupId b.orders_map (memGet mem r).order_id = some r

/-- The object `r` is a live bid with the highest price among the live
bids in the lookup table, ties broken by the earliest timestamp. -/
def BestBidChoice (b : OrderBook) (mem : Memory) (r : Nat) : Prop :=
  IsLiveBidIn b mem r ∧
  ∀ pr ∈ b.orders_map, (memGet mem pr.2).side = "BUY" →
    priceOf mem pr.2 < priceOf mem r ∨
      (priceOf mem pr.2 = priceOf mem r ∧ tsOf mem r ≤ tsOf mem pr.2)

/-- The object `r` is a live ask with the lowest price among the live
asks in the lookup table, ties broken by the earliest timestamp. -/
def BestAskChoice (b : OrderBook) (mem : Memory) (r : Nat) : Prop :=
  IsLiveAskIn b mem r ∧
  ∀ pr ∈ b.orders_map, (memGet mem pr.2).side = "SELL" →
    priceOf mem r < priceOf mem pr.2 ∨
      (priceOf mem r = priceOf mem pr.2 ∧ tsOf mem r ≤ tsOf mem pr.2)

/-- Concrete order objects and book states used to instantiate the
theorems below on executable inputs. -/
def wO1 : Order :=
  { symbol := "S", side := "BUY", order_type := "LIMIT", quantity := 10,
    price := some 99, order_id := "a", timestamp := 1,
    filled_quantity := 0, status := "OPEN" }

/-- Concrete bid at price 100, timestamp 2. -/
def wO2 : Order := { wO1 with price := some 100, order_id := "b", timestamp := 2 }

/-- Concrete ask at price 101, timestamp 3. -/
def wO3 : Order :=
  { wO1 with side := "SELL", price := some 101, order_id := "c", timestamp := 3 }

/-- Concrete MARKET order. -/
def wO4 : Order :=
  { wO1 with order_type := "MARKET", price := none, order_id := "d", timestamp := 4 }

/-- The memory after constructing `wO1`, `wO2`, `wO3`, `wO4`. -/
def wMem : Memory := [wO1, wO2, wO3, wO4]

/-- The book for symbol `S` holding `wO1`, `wO2` as bids and `wO3` as an
ask (the state after three successful `add_order` calls). -/
def wB3 : OrderBook :=
  { symbol := "S", bids := [⟨-100, 2, 1⟩, ⟨-99, 1, 0⟩], asks := [⟨101, 3, 2⟩],
    orders_map := [("a", 0), ("b", 1), ("c", 2)] }

/-- Concrete bid colliding with `wO1` on both price and timestamp, used
for the heap-comparison `TypeError` scenario. -/
def tO2 : Order := { wO1 with order_id := "t" }

/-- Memory for the tie scenario. -/
def tMem : Memory := [wO1, tO2]

/-- Book holding only `wO1`, about to receive the colliding `tO2`. -/
def tB1 : OrderBook :=
  { symbol := "S", bids := [⟨-99, 1, 0⟩], asks := [], orders_map := [("a", 0)] }

/-- A sequence of `Order.fill` calls, applied left to right. -/
def fillAll (o : Order) (amts : List Int) : Order :=
  amts.foldl Order.fill o

/-! Basic facts about the key order and Python tuple comparison. -/

theorem keyLe_refl (a : Entry) : keyLe a a := by
  unfold keyLe; right; exact ⟨rfl, le_refl _⟩

theorem keyLe_trans {a b c : Entry} (h1 : keyLe a b) (h2 : keyLe b c) : keyLe a c := by
  unfold keyLe at *
  rcases h1 with h1 | ⟨h1p, h1t⟩ <;> rcases h2 with h2 | ⟨h2p, h2t⟩
  · exact Or.inl (lt_trans h1 h2)
  · exact Or.inl (h2p ▸ h1)
  · exact Or.inl (h1p ▸ h2)
  · exact Or.inr ⟨h1p.trans h2p, le_trans h1t h2t⟩

theorem keyLt.le {a b : Entry} (h : keyLt a b) : keyLe a b := by
  unfold keyLt at h; unfold keyLe
  rcases h with h | ⟨hp, ht⟩
  · exact Or.inl h
  · exact Or.inr ⟨hp, le_of_lt ht⟩

theorem keyLt_of_lt_of_le {a b c : Entry} (h1 : keyLt a b) (h2 : keyLe b c) : keyLt a c := by
  unfold keyLt at *; unfold keyLe at h2
  rcases h1 with h1 | ⟨h1p, h1t⟩ <;> rcases h2 with h2 | ⟨h2p, h2t⟩
  · exact Or.inl (lt_trans h1 h2)
  · exact Or.inl (h2p ▸ h1)
  · exact Or.inl (h1p ▸ h2)
  · exact Or.inr ⟨h1p.trans h2p, lt_of_lt_of_le h1t h2t⟩

theorem pyLt_true {a b : Entry} (h : pyLt a b = some true) : keyLt a b := by
  unfold pyLt at h
  unfold keyLt
  split at h
  · rename_i hp
    simp only [Option.some.injEq, decide_eq_true_eq] at h
    exact Or.inl h
  · split at h
    · rename_i hp ht
      simp only [Option.some.injEq, decide_eq_true_eq] at h
      push_neg at hp
      exact Or.inr ⟨hp, h⟩
    · split at h
      · simp at h
      · simp at h

theorem pyLt_false {a b : Entry} (h : pyLt a b = some false) : keyLe b a := by
  unfold pyLt at h
  unfold keyLe
  split at h
  · rename_i hp
    simp only [Option.some.injEq, decide_eq_false_iff_not, not_lt] at h
    exact Or.inl (lt_of_le_of_ne h (Ne.symm hp))
  · rename_i hp
    push_neg at hp
    split at h
    · rename_i ht
      simp only [Option.some.injEq, decide_eq_false_iff_not, not_lt] at h
      exact Or.inr ⟨hp.symm, h⟩
    · rename_i ht
      push_neg at ht
      split at h
      · exact Or.inr ⟨hp.symm, le_of_eq ht.symm⟩
      · simp at h

/-! List helper lemmas used by the heap proofs. -/

theorem getD_set_self {α : Type} [Inhabited α] (l : List α) (i : ℕ) (a : α)
    (h : i < l.length) : (l.set i a).getD i default = a := by
  rw [List.getD_eq_getElem?_getD, List.getElem?_set]
  simp [h]

theorem getD_set_ne {α : Type} [Inhabited α] (l : List α) {i j : ℕ} (a : α)
    (h : i ≠ j) : (l.set i a).getD j default = l.getD j default := by
  rw [List.getD_eq_getElem?_getD, List.getElem?_set]
  simp [h, List.getD_eq_getElem?_getD]

theorem getD_append_left {α : Type} [Inhabited α] {l₁ l₂ : List α} {i : ℕ}
    (h : i < l₁.length) : (l₁ ++ l₂).getD i default = l₁.getD i default := by
  rw [List.getD_eq_getElem?_getD, List.getD_eq_getElem?_getD,
    List.getElem?_append_left h]

theorem getD_append_len {α : Type} [Inhabited α] (l : List α) (a : α) :
    (l ++ [a]).getD l.length default = a := by
  rw [List.getD_eq_getElem?_getD]
  rw [List.getElem?_append_right (le_refl _)]
  simp

theorem getD_mem {α : Type} [Inhabited α] {l : List α} {i : ℕ}
    (h : i < l.length) : l.getD i default ∈ l := by
  rw [List.getD_eq_getElem l default h]
  exact List.getElem_mem h

/-- Transposition: overwriting slot `i` with the value of slot `j` and
then slot `j` with `a` is, up to permutation, just overwriting slot `i`
with `a`. -/
theorem set_getD_set_perm {α : Type} [Inhabited α] [DecidableEq α] (l : List α)
    (i j : ℕ) (a : α) (hi : i < l.length) (hj : j < l.length) (hij : i ≠ j) :
    ((l.set i (l.getD j default)).set j a).Perm (l.set i a) := by
  classical
  rw [List.perm_iff_count]
  intro x
  have hlen : (l.set i (l.getD j default)).length = l.length := List.length_set l i _
  have hjd : l.getD j default = l[j] := List.getD_eq_getElem l default hj
  have h1 := List.count_set (l.getD j default) x l i hi
  have h2 := List.count_set a x (l.set i (l.getD j default)) j (hlen ▸ hj)
  have h3 := List.count_set a x l i hi
  have e1 : (l.set i (l.getD j default))[j] = l[j] := by
    rw [List.getElem_set_ne hij]
  rw [h2, e1, h1, h3, hjd]
  have hcount : l[i] = x → 1 ≤ List.count x l := by
    intro hx
    have : x ∈ l := hx ▸ List.getElem_mem hi
    exact List.count_pos_iff.mpr this
  by_cases hix : l[i] = x <;> by_cases hjx : l[j] = x <;> by_cases hax : a = x <;>
    simp only [hix, hjx, hax, beq_iff_eq, if_true, if_false, beq_self_eq_true] <;>
    omega

/-! Heap arithmetic helpers. -/

theorem parentIdx_lt {j : ℕ} (h : 0 < j) : parentIdx j < j := by
  unfold parentIdx; omega

theorem parentIdx_le (j : ℕ) : parentIdx j ≤ j := by
  unfold parentIdx; omega

theorem child_lower {j p : ℕ} (h : parentIdx j = p) (hj : 0 < j) : 2 * p + 1 ≤ j := by
  unfold parentIdx at h; omega

/-- Correctness of the `_siftdown` loop: starting from a hole at `pos`
(array `heap.set pos newitem` correct everywhere except possibly the
relation between `pos` and its parent, and with the hole's parent below
the hole's children), a successful run yields a heap that is a
permutation of `heap.set pos newitem` and satisfies the heap
invariant. -/
theorem sdGo_spec : ∀ (fuel : ℕ) (pos : ℕ) (heap : List Entry) (newitem : Entry),
    pos ≤ fuel → pos < heap.length →
    (∀ j, 0 < j → j < heap.length → j ≠ pos →
      keyLe ((heap.set pos newitem).getD (parentIdx j) default)
            ((heap.set pos newitem).getD j default)) →
    (0 < pos → ∀ j, j < heap.length → parentIdx j = pos →
      keyLe (heap.getD (parentIdx pos) default) (heap.getD j default)) →
    ∀ h', siftdownGo 0 newitem fuel heap pos = (h', none) →
    HeapInv h' ∧ h'.Perm (heap.set pos newitem) := by
  intro fuel
  induction fuel with
  | zero =>
    intro pos heap newitem hfuel hpos ha hb h' heq
    have hpos0 : pos = 0 := by omega
    subst hpos0
    simp only [siftdownGo] at heq
    have hh : h' = heap.set 0 newitem := (congrArg Prod.fst heq).symm
    subst hh
    refine ⟨?_, List.Perm.refl _⟩
    intro j hj0 hjlen
    rw [List.length_set] at hjlen
    exact ha j hj0 hjlen (by omega)
  | succ fuel ih =>
    intro pos heap newitem hfuel hpos ha hb h' heq
    simp only [siftdownGo] at heq
    by_cases hp0 : 0 < pos
    · rw [if_pos hp0] at heq
      rcases hpy : pyLt newitem (heap.getD (parentIdx pos) default) with _ | b
      · simp only [hpy] at heq
        simp at heq
      · rcases b with _ | _
        · -- some false: place newitem at pos
          simp only [hpy] at heq
          have hh : h' = heap.set pos newitem := (congrArg Prod.fst heq).symm
          subst hh
          refine ⟨?_, List.Perm.refl _⟩
          intro j hj0 hjlen
          rw [List.length_set] at hjlen
          by_cases hj : j = pos
          · subst hj
            rw [getD_set_ne heap newitem (by exact fun hc => absurd hc.symm (Nat.ne_of_lt (parentIdx_lt hp0)))]
            rw [getD_set_self heap j newitem hpos]
            exact pyLt_false hpy
          · exact ha j hj0 hjlen hj
        · -- some true: move parent down, recurse at parentIdx pos
          simp only [hpy] at heq
          have hklt : keyLt newitem (heap.getD (parentIdx pos) default) := pyLt_true hpy
          have hpplt : parentIdx pos < pos := parentIdx_lt hp0
          have hpplen : parentIdx pos < (heap.set pos (heap.getD (parentIdx pos) default)).length := by
            rw [List.length_set]; omega
          -- getD on the doubly updated list
          have hget : ∀ k, ((heap.set pos (heap.getD (parentIdx pos) default)).set
              (parentIdx pos) newitem).getD k default =
              if k = parentIdx pos then newitem
              else if k = pos then heap.getD (parentIdx pos) default
              else heap.getD k default := by
            intro k
            by_cases hk1 : k = parentIdx pos
            · subst hk1
              rw [getD_set_self _ _ _ hpplen, if_pos rfl]
            · rw [getD_set_ne _ _ (fun hc => hk1 hc.symm), if_neg hk1]
              by_cases hk2 : k = pos
              · subst hk2
                rw [getD_set_self _ _ _ hpos, if_pos rfl]
              · rw [getD_set_ne _ _ (fun hc => hk2 hc.symm), if_neg hk2]
          have hgetH : ∀ k, k ≠ pos →
              (heap.set pos newitem).getD k default = heap.getD k default := by
            intro k hk
            exact getD_set_ne _ _ (fun hc => hk hc.symm)
          have ha' : ∀ j, 0 < j → j < (heap.set pos (heap.getD (parentIdx pos) default)).length →
              j ≠ parentIdx pos →
              keyLe (((heap.set pos (heap.getD (parentIdx pos) default)).set (parentIdx pos)
                  newitem).getD (parentIdx j) default)
                (((heap.set pos (heap.getD (parentIdx pos) default)).set (parentIdx pos)
                  newitem).getD j default) := by
            intro j hj0 hjlen hjne
            rw [List.length_set] at hjlen
            rw [hget, hget]
            by_cases hjpos : j = pos
            · subst hjpos
              rw [if_pos rfl, if_neg (by omega), if_pos rfl]
              exact hklt.le
            · by_cases hpj : parentIdx j = pos
              · rw [if_neg hjne, if_neg hjpos, hpj,
                  if_neg (by omega), if_pos rfl]
                exact hb hp0 j hjlen hpj
              · by_cases hpj2 : parentIdx j = parentIdx pos
                · rw [if_neg hjne, if_neg hjpos, hpj2, if_pos rfl]
                  have h1 := ha j hj0 hjlen hjpos
                  rw [hgetH j hjpos, hgetH (parentIdx j) (by omega), hpj2] at h1
                  exact (keyLt_of_lt_of_le hklt h1).le
                · rw [if_neg hjne, if_neg hjpos, if_neg hpj2, if_neg hpj]
                  have h1 := ha j hj0 hjlen hjpos
                  rw [hgetH j hjpos, hgetH (parentIdx j) hpj] at h1
                  exact h1
          have hb' : 0 < parentIdx pos →
              ∀ j, j < (heap.set pos (heap.getD (parentIdx pos) default)).length →
              parentIdx j = parentIdx pos →
              keyLe ((heap.set pos (heap.getD (parentIdx pos) default)).getD
                  (parentIdx (parentIdx pos)) default)
                ((heap.set pos (heap.getD (parentIdx pos) default)).getD j default) := by
            intro hpp0 j hjlen hpj
            rw [List.length_set] at hjlen
            have hgpne : parentIdx (parentIdx pos) ≠ pos := by
              have := parentIdx_le (parentIdx pos); omega
            rw [getD_set_ne _ _ (fun hc => hgpne hc.symm)]
            have happ := ha (parentIdx pos) hpp0 (by omega) (by omega)
            rw [hgetH (parentIdx pos) (by omega),
              hgetH (parentIdx (parentIdx pos)) hgpne] at happ
            by_cases hjpos : j = pos
            · subst hjpos
              rw [getD_set_self _ _ _ hpos]
              exact happ
            · rw [getD_set_ne _ _ (fun hc => hjpos hc.symm)]
              have hj0 : 0 < j := by
                unfold parentIdx at hpj hpp0
                omega
              have h1 := ha j hj0 hjlen hjpos
              rw [hgetH j hjpos, hgetH (parentIdx j) (by omega), hpj] at h1
              exact keyLe_trans happ h1
          obtain ⟨hinv, hperm⟩ := ih (parentIdx pos)
            (heap.set pos (heap.getD (parentIdx pos) default)) newitem
            (by omega) hpplen ha' hb' h' heq
          refine ⟨hinv, hperm.trans ?_⟩
          exact set_getD_set_perm heap pos (parentIdx pos) newitem hpos (by omega)
            (by omega)
    · rw [if_neg hp0] at heq
      have hh : h' = heap.set pos newitem := (congrArg Prod.fst heq).symm
      subst hh
      refine ⟨?_, List.Perm.refl _⟩
      intro j hj0 hjlen
      rw [List.length_set] at hjlen
      exact ha j hj0 hjlen (by omega)

/-- Correctness of the `_siftup` loop: starting from a hole at `pos`
(array correct everywhere except at the hole and its children, with the
hole's parent below the hole's children), a successful run yields a heap
that is a permutation of `heap.set pos newitem` and satisfies the heap
invariant. -/
theorem suGo_spec : ∀ (fuel : ℕ) (pos : ℕ) (heap : List Entry) (newitem : Entry),
    heap.length - pos ≤ fuel → pos < heap.length →
    (∀ j, 0 < j → j < heap.length → j ≠ pos → parentIdx j ≠ pos →
      keyLe ((heap.set pos newitem).getD (parentIdx j) default)
            ((heap.set pos newitem).getD j default)) →
    (0 < pos → ∀ j, j < heap.length → parentIdx j = pos →
      keyLe (heap.getD (parentIdx pos) default) (heap.getD j default)) →
    ∀ h', siftupGo 0 newitem fuel heap pos = (h', none) →
    HeapInv h' ∧ h'.Perm (heap.set pos newitem) := by
  intro fuel
  induction fuel with
  | zero =>
    intro pos heap newitem hfuel hpos ha hb h' heq
    omega
  | succ fuel ih =>
    intro pos heap newitem hfuel hpos ha hb h' heq
    simp only [siftupGo] at heq
    have hgetH : ∀ k, k ≠ pos →
        (heap.set pos newitem).getD k default = heap.getD k default := by
      intro k hk
      exact getD_set_ne _ _ (fun hc => hk hc.symm)
    by_cases hc1 : 2 * pos + 1 < heap.length
    · rw [if_pos hc1] at heq
      have hstep : ∀ c, pos < c → c < heap.length → parentIdx c = pos →
          (∀ s, 0 < s → s < heap.length → parentIdx s = pos → s ≠ c →
            keyLe (heap.getD c default) (heap.getD s default)) →
          siftupGo 0 newitem fuel (heap.set pos (heap.getD c default)) c = (h', none) →
          HeapInv h' ∧ h'.Perm (heap.set pos newitem) := by
        intro c hposc hclen hcchild hmin heq2
        have hget2 : ∀ k, ((heap.set pos (heap.getD c default)).set c newitem).getD k default =
            if k = c then newitem
            else if k = pos then heap.getD c default
            else heap.getD k default := by
          intro k
          by_cases hk1 : k = c
          · subst hk1
            rw [getD_set_self _ _ _ (by rw [List.length_set]; omega), if_pos rfl]
          · rw [getD_set_ne _ _ (fun hc => hk1 hc.symm), if_neg hk1]
            by_cases hk2 : k = pos
            · subst hk2
              rw [getD_set_self _ _ _ hpos, if_pos rfl]
            · rw [getD_set_ne _ _ (fun hc => hk2 hc.symm), if_neg hk2]
        have ha2 : ∀ j, 0 < j → j < (heap.set pos (heap.getD c default)).length →
            j ≠ c → parentIdx j ≠ c →
            keyLe (((heap.set pos (heap.getD c default)).set c newitem).getD (parentIdx j) default)
              (((heap.set pos (heap.getD c default)).set c newitem).getD j default) := by
          intro j hj0 hjlen hjc hpjc
          rw [List.length_set] at hjlen
          rw [hget2, hget2]
          by_cases hjpos : j = pos
          · subst hjpos
            have hppos : parentIdx j < j := parentIdx_lt hj0
            have e1 : ¬ (parentIdx j = c) := by omega
            have e2 : ¬ (parentIdx j = j) := by omega
            have e3 : ¬ (j = c) := by omega
            rw [if_neg e1, if_neg e2, if_neg e3, if_pos rfl]
            exact hb hj0 c hclen hcchild
          · by_cases hpj : parentIdx j = pos
            · rw [if_neg hpjc, if_pos hpj, if_neg hjc, if_neg hjpos]
              exact hmin j hj0 hjlen hpj hjc
            · rw [if_neg hpjc, if_neg hpj, if_neg hjc, if_neg hjpos]
              have h1 := ha j hj0 hjlen hjpos hpj
              rw [hgetH j hjpos, hgetH (parentIdx j) hpj] at h1
              exact h1
        have hb2 : 0 < c → ∀ j, j < (heap.set pos (heap.getD c default)).length →
            parentIdx j = c →
            keyLe ((heap.set pos (heap.getD c default)).getD (parentIdx c) default)
              ((heap.set pos (heap.getD c default)).getD j default) := by
          intro hc0 j hjlen hpj
          rw [List.length_set] at hjlen
          have hjc : c < j := by
            have := child_lower hpj (by unfold parentIdx at hpj; omega)
            omega
          rw [hcchild, getD_set_self _ _ _ hpos,
            getD_set_ne _ _ (fun hcon => (by omega : pos ≠ j) hcon)]
          have h1 := ha j (by omega) hjlen (by omega) (by omega)
          rw [hgetH j (by omega), hgetH (parentIdx j) (by omega), hpj] at h1
          exact h1
        obtain ⟨hinv, hperm⟩ := ih c (heap.set pos (heap.getD c default)) newitem
          (by rw [List.length_set]; omega) (by rw [List.length_set]; omega) ha2 hb2 h' heq2
        refine ⟨hinv, hperm.trans ?_⟩
        exact set_getD_set_perm heap pos c newitem hpos hclen (by omega)
      by_cases hc2 : 2 * pos + 2 < heap.length
      · rw [if_pos hc2] at heq
        rcases hpy : pyLt (heap.getD (2 * pos + 1) default) (heap.getD (2 * pos + 2) default)
          with _ | b
        · simp only [hpy] at heq
          simp at heq
        · rcases b with _ | _
          · -- some false: right child is not larger, take the right child
            simp only [hpy] at heq
            refine hstep (2 * pos + 2) (by omega) hc2 (by unfold parentIdx; omega) ?_ heq
            intro s hs0 hslen hps hsne
            have hs : s = 2 * pos + 1 := by unfold parentIdx at hps; omega
            subst hs
            exact pyLt_false hpy
          · -- some true: left child is smaller, take the left child
            simp only [hpy] at heq
            refine hstep (2 * pos + 1) (by omega) hc1 (by unfold parentIdx; omega) ?_ heq
            intro s hs0 hslen hps hsne
            have hs : s = 2 * pos + 2 := by unfold parentIdx at hps; omega
            subst hs
            exact (pyLt_true hpy).le
      · rw [if_neg hc2] at heq
        refine hstep (2 * pos + 1) (by omega) hc1 (by unfold parentIdx; omega) ?_ heq
        intro s hs0 hslen hps hsne
        have hs : s = 2 * pos + 2 := by unfold parentIdx at hps; omega
        omega
    · rw [if_neg hc1] at heq
      have hsd := sdGo_spec pos pos (heap.set pos newitem) newitem (le_refl _)
        (by rw [List.length_set]; omega) ?_ ?_ h' heq
      · rw [List.set_set] at hsd
        exact hsd
      · intro j hj0 hjlen hjne
        rw [List.length_set] at hjlen
        rw [List.set_set]
        by_cases hpj : parentIdx j = pos
        · exfalso
          have := child_lower hpj hj0
          omega
        · exact ha j hj0 hjlen hjne hpj
      · intro hp0 j hjlen hpj
        rw [List.length_set] at hjlen
        exfalso
        have hj0 : 0 < j := by unfold parentIdx at hpj; omega
        have := child_lower hpj hj0
        omega

/-- `heappush` on a well-formed heap: on success the result is a heap
and a permutation of the input plus the new item. -/
theorem heappush_spec {heap : List Entry} {item : Entry} {h' : List Entry}
    (hinv : HeapInv heap) (heq : heappush heap item = (h', none)) :
    HeapInv h' ∧ h'.Perm (heap ++ [item]) := by
  unfold heappush siftdown at heq
  rw [getD_append_len heap item] at heq
  have hlen : heap.length < (heap ++ [item]).length := by
    rw [List.length_append]; simp
  have hset : (heap ++ [item]).set heap.length item = heap ++ [item] := by
    rw [List.set_append, if_neg (by omega)]
    simp
  have hres := sdGo_spec heap.length heap.length (heap ++ [item]) item (le_refl _)
    hlen ?_ ?_ h' heq
  · rw [hset] at hres
    exact hres
  · intro j hj0 hjlen hjne
    rw [hset]
    rw [List.length_append] at hjlen
    have hjlt : j < heap.length := by simp at hjlen; omega
    have hplt : parentIdx j < heap.length := by
      have := parentIdx_le j; omega
    rw [List.getD_append _ _ _ _ hjlt, List.getD_append _ _ _ _ hplt]
    exact hinv j hj0 hjlt
  · intro hp0 j hjlen hpj
    exfalso
    rw [List.length_append] at hjlen
    have hj0 : 0 < j := by unfold parentIdx at hpj; omega
    have := child_lower hpj hj0
    simp at hjlen
    omega

/-- In a well-formed heap the root is below every element. -/
theorem heapInv_root_le {l : List Entry} (hinv : HeapInv l) :
    ∀ i, i < l.length → keyLe (l.getD 0 default) (l.getD i default) := by
  intro i
  induction i using Nat.strong_induction_on with
  | _ i ih =>
    intro hi
    rcases Nat.eq_zero_or_pos i with rfl | hpos
    · exact keyLe_refl _
    · have hplt : parentIdx i < i := parentIdx_lt hpos
      exact keyLe_trans (ih (parentIdx i) hplt (by omega)) (hinv i hpos hi)

/-- `heappop` on a nonempty well-formed heap: on success it returns the
root, and the new heap together with the returned element is a
permutation of the input. -/
theorem heappop_spec {heap : List Entry} {h' : List Entry} {ret : Entry}
    (hne : heap ≠ []) (hinv : HeapInv heap)
    (heq : heappop heap = ((h', ret), none)) :
    ret = heap.getD 0 default ∧ HeapInv h' ∧ (ret :: h').Perm heap := by
  obtain ⟨x, xs, rfl⟩ := List.exists_cons_of_ne_nil hne
  rcases xs with _ | ⟨y, ys⟩
  · simp only [heappop, List.dropLast_single, List.getLast?_singleton,
      Option.getD_some, Prod.mk.injEq, and_true] at heq
    obtain ⟨rfl, rfl⟩ := heq
    refine ⟨rfl, ?_, by simp⟩
    intro j hj0 hjl
    simp at hjl
  · simp only [heappop, List.dropLast_cons₂] at heq
    rw [if_neg (by simp)] at heq
    have hLy : (y :: ys).dropLast ++ [(x :: y :: ys).getLast?.getD default] = y :: ys := by
      rw [List.getLast?_eq_getLast _ hne, Option.getD_some,
        List.getLast_cons (by simp : (y :: ys) ≠ [])]
      exact List.dropLast_concat_getLast (by simp)
    have hconc : (x :: (y :: ys).dropLast) ++ [(x :: y :: ys).getLast?.getD default]
        = x :: y :: ys := by
      rw [List.cons_append, hLy]
    have hlen1 : (x :: (y :: ys).dropLast).length = ys.length + 1 := by
      simp [List.length_dropLast]
    have hr1 : ∀ k, k ≠ 0 →
        ((x :: (y :: ys).dropLast).set 0 ((x :: y :: ys).getLast?.getD default)).getD k default
          = (x :: (y :: ys).dropLast).getD k default := by
      intro k hk
      exact getD_set_ne _ _ (fun hc => hk hc.symm)
    have hr2 : ∀ k, k < (x :: (y :: ys).dropLast).length →
        (x :: (y :: ys).dropLast).getD k default = (x :: y :: ys).getD k default := by
      intro k hk
      conv_rhs => rw [← hconc]
      rw [List.getD_append _ _ _ _ hk]
    rcases hsu : siftup ((x :: (y :: ys).dropLast).set 0
        ((x :: y :: ys).getLast?.getD default)) 0 with ⟨h2, e⟩
    rcases e with _ | e
    · rw [hsu] at heq
      simp only [Prod.mk.injEq, and_true] at heq
      obtain ⟨rfl, rfl⟩ := heq
      unfold siftup at hsu
      rw [getD_set_self _ _ _ (by simp)] at hsu
      have hres := suGo_spec (((x :: (y :: ys).dropLast).set 0
          ((x :: y :: ys).getLast?.getD default)).length - 0) 0
        ((x :: (y :: ys).dropLast).set 0 ((x :: y :: ys).getLast?.getD default))
        ((x :: y :: ys).getLast?.getD default) (le_refl _) (by simp) ?_ ?_ h2 hsu
      · obtain ⟨hinv2, hperm⟩ := hres
        rw [List.set_set] at hperm
        refine ⟨by simp, hinv2, ?_⟩
        have hxL : (x :: (y :: ys).dropLast).set 0 ((x :: y :: ys).getLast?.getD default)
            = (x :: y :: ys).getLast?.getD default :: (y :: ys).dropLast := by
          simp
        rw [hxL] at hperm
        simp only [List.getD_cons_zero]
        refine List.Perm.trans (hperm.cons x) ?_
        refine List.Perm.trans (((List.perm_append_singleton _ _).symm).cons x) ?_
        rw [hLy]
      · intro j hj0 hjlen hjne hpjne
        rw [List.set_set]
        rw [List.length_set] at hjlen
        have hplt : parentIdx j < j := parentIdx_lt hj0
        rw [hr1 j hjne, hr1 (parentIdx j) hpjne, hr2 j hjlen,
          hr2 (parentIdx j) (by omega)]
        have hjlen2 : j < (x :: y :: ys).length := by
          rw [hlen1] at hjlen; simp; omega
        exact hinv j hj0 hjlen2
      · intro hp0
        omega
    · rw [hsu] at heq
      simp at heq

/-- The `_clean_heap_top` loop with enough fuel: on success it removes
only entries whose orders are not live, preserves the heap invariant,
and leaves a live top (or an empty heap). -/
theorem cleanGo_spec (mem : Memory) : ∀ (fuel : ℕ) (heap : List Entry),
    heap.length ≤ fuel → HeapInv heap →
    ∀ h', cleanGo mem fuel heap = (h', none) →
    HeapInv h' ∧
    (∃ rem, heap.Perm (h' ++ rem) ∧ ∀ e ∈ rem, ¬ isLive (memGet mem e.ref)) ∧
    (h' ≠ [] → isLive (memGet mem (h'.getD 0 default).ref)) := by
  intro fuel
  induction fuel with
  | zero =>
    intro heap hlen hinv h' heq
    have hnil : heap = [] := List.length_eq_zero.mp (by omega)
    subst hnil
    simp only [cleanGo] at heq
    obtain rfl : h' = [] := (congrArg Prod.fst heq).symm
    exact ⟨hinv, ⟨[], by simp, by simp⟩, by simp⟩
  | succ fuel ih =>
    intro heap hlen hinv h' heq
    simp only [cleanGo] at heq
    by_cases hcond : heap ≠ [] ∧ ¬ isLive (memGet mem (heap.getD 0 default).ref)
    · rw [if_pos hcond] at heq
      obtain ⟨hne, hdead⟩ := hcond
      rcases hpp : heappop heap with ⟨⟨hh, r⟩, e⟩
      rcases e with _ | e
      · rw [hpp] at heq
        obtain ⟨hr, hinvh, hperm⟩ := heappop_spec hne hinv hpp
        have hlenh : heap.length = hh.length + 1 := by
          have := hperm.length_eq
          simp at this
          omega
        obtain ⟨hi, ⟨rem, hp, hdeadrem⟩, htop⟩ := ih hh (by omega) hinvh h' heq
        refine ⟨hi, ⟨r :: rem, ?_, ?_⟩, htop⟩
        · refine List.Perm.trans hperm.symm ?_
          refine List.Perm.trans (hp.cons r) ?_
          exact List.perm_middle.symm
        · intro e he
          rcases List.mem_cons.mp he with rfl | he
          · rw [hr]; exact hdead
          · exact hdeadrem e he
      · rw [hpp] at heq
        simp at heq
    · rw [if_neg hcond] at heq
      obtain rfl : h' = heap := (congrArg Prod.fst heq).symm
      push_neg at hcond
      refine ⟨hinv, ⟨[], by simp, by simp⟩, ?_⟩
      intro hne
      exact hcond hne

/-- `OrderBook._clean_heap_top` on a well-formed heap. -/
theorem clean_spec {mem : Memory} {heap : List Entry} (hinv : HeapInv heap)
    {h' : List Entry} (heq : clean_heap_top mem heap = (h', none)) :
    HeapInv h' ∧
    (∃ rem, heap.Perm (h' ++ rem) ∧ ∀ e ∈ rem, ¬ isLive (memGet mem e.ref)) ∧
    (h' ≠ [] → isLive (memGet mem (h'.getD 0 default).ref)) :=
  cleanGo_spec mem heap.length heap (le_refl _) hinv h' heq

/-- Entries surviving the cleanup come from the original heap. -/
theorem clean_sub {mem : Memory} {heap h' : List Entry} (hinv : HeapInv heap)
    (heq : clean_heap_top mem heap = (h', none)) :
    ∀ e ∈ h', e ∈ heap := by
  obtain ⟨-, ⟨rem, hp, -⟩, -⟩ := clean_spec hinv heq
  intro e he
  exact hp.symm.mem_iff.mp (List.mem_append.mpr (Or.inl he))

/-- Entries of the original heap whose order is live survive the
cleanup. -/
theorem clean_keeps_live {mem : Memory} {heap h' : List Entry} (hinv : HeapInv heap)
    (heq : clean_heap_top mem heap = (h', none)) :
    ∀ e ∈ heap, isLive (memGet mem e.ref) → e ∈ h' := by
  obtain ⟨-, ⟨rem, hp, hdead⟩, -⟩ := clean_spec hinv heq
  intro e he hlive
  rcases List.mem_append.mp (hp.mem_iff.mp he) with h | h
  · exact h
  · exact absurd hlive (hdead e h)

/-- The live entries are preserved up to permutation by the cleanup. -/
theorem clean_live_perm {mem : Memory} {heap h' : List Entry} (hinv : HeapInv heap)
    (heq : clean_heap_top mem heap = (h', none)) :
    (heap.filter (liveRef mem)).Perm (h'.filter (liveRef mem)) := by
  obtain ⟨-, ⟨rem, hp, hdead⟩, -⟩ := clean_spec hinv heq
  have h1 := hp.filter (liveRef mem)
  rw [List.filter_append] at h1
  have h2 : rem.filter (liveRef mem) = [] := by
    rw [List.filter_eq_nil_iff]
    intro e he
    simp only [liveRef, decide_eq_true_eq]
    exact hdead e he
  rw [h2, List.append_nil] at h1
  exact h1

/-! Lookup-table (Python dict) lemmas. -/

theorem lookupId_mem : ∀ {m : List (String × Nat)} {k : String} {v : Nat},
    lookupId m k = some v → (k, v) ∈ m := by
  intro m
  induction m with
  | nil => intro k v h; simp [lookupId] at h
  | cons pr rest ih =>
    intro k v h
    unfold lookupId at h
    split at h
    · rename_i hk
      subst hk
      obtain rfl : pr.2 = v := by simpa using h
      simpa using List.mem_cons_self pr rest
    · exact List.mem_cons_of_mem _ (ih h)

theorem lookupId_none_iff : ∀ {m : List (String × Nat)} {k : String},
    lookupId m k = none ↔ k ∉ m.map Prod.fst := by
  intro m
  induction m with
  | nil => intro k; simp [lookupId]
  | cons pr rest ih =>
    intro k
    unfold lookupId
    split
    · rename_i hk
      simp [hk]
    · rename_i hk
      simp only [List.map_cons, List.mem_cons, not_or, ih]
      constructor
      · intro h
        exact ⟨fun hc => hk hc.symm, h⟩
      · intro h
        exact h.2

theorem mem_lookupId : ∀ {m : List (String × Nat)} {k : String} {v : Nat},
    (m.map Prod.fst).Nodup → (k, v) ∈ m → lookupId m k = some v := by
  intro m
  induction m with
  | nil => intro k v _ h; simp at h
  | cons pr rest ih =>
    intro k v hnd hm
    rw [List.map_cons, List.nodup_cons] at hnd
    obtain ⟨hnotin, hnd'⟩ := hnd
    unfold lookupId
    rcases List.mem_cons.mp hm with heq | hm'
    · subst heq
      simp
    · split
      · rename_i hk
        subst hk
        exact absurd (List.mem_map_of_mem Prod.fst hm') hnotin
      · exact ih hnd' hm'

theorem lookupId_append_none {m l : List (String × Nat)} {k : String}
    (h : lookupId m k = none) : lookupId (m ++ l) k = lookupId l k := by
  induction m with
  | nil => simp
  | cons pr rest ih =>
    rw [List.cons_append]
    simp only [lookupId] at h ⊢
    split at h
    · simp at h
    · rename_i hk
      rw [if_neg hk]
      exact ih h

theorem lookupId_append_some {m l : List (String × Nat)} {k : String} {v : Nat}
    (h : lookupId m k = some v) : lookupId (m ++ l) k = some v := by
  induction m with
  | nil => simp [lookupId] at h
  | cons pr rest ih =>
    rw [List.cons_append]
    simp only [lookupId] at h ⊢
    split at h
    · rename_i hk
      rw [if_pos hk]
      exact h
    · rename_i hk
      rw [if_neg hk]
      exact ih h

theorem eraseId_sublist : ∀ (m : List (String × Nat)) (k : String),
    (eraseId m k).Sublist m := by
  intro m k
  induction m with
  | nil => simp [eraseId]
  | cons pr rest ih =>
    unfold eraseId
    split
    · exact List.sublist_cons_self pr rest
    · exact List.Sublist.cons₂ pr ih

theorem mem_eraseId_of_ne : ∀ {m : List (String × Nat)} {k : String} {pr : String × Nat},
    pr ∈ m → pr.1 ≠ k → pr ∈ eraseId m k := by
  intro m
  induction m with
  | nil => intro k pr h; simp at h
  | cons q rest ih =>
    intro k pr hm hne
    unfold eraseId
    rcases List.mem_cons.mp hm with rfl | hm'
    · rw [if_neg hne]
      exact List.mem_cons_self _ _
    · split
      · exact hm'
      · exact List.mem_cons_of_mem _ (ih hm' hne)

theorem lookupId_eraseId_self : ∀ {m : List (String × Nat)} {k : String},
    (m.map Prod.fst).Nodup → lookupId (eraseId m k) k = none := by
  intro m
  induction m with
  | nil => intro k _; simp [eraseId, lookupId]
  | cons pr rest ih =>
    intro k hnd
    rw [List.map_cons, List.nodup_cons] at hnd
    obtain ⟨hnotin, hnd'⟩ := hnd
    unfold eraseId
    split
    · rename_i hk
      subst hk
      rw [lookupId_none_iff]
      exact hnotin
    · rename_i hk
      unfold lookupId
      rw [if_neg hk]
      exact ih hnd'

theorem lookupId_eraseId_ne : ∀ {m : List (String × Nat)} {k k' : String},
    k' ≠ k → lookupId (eraseId m k) k' = lookupId m k' := by
  intro m
  induction m with
  | nil => intro k k' _; simp [eraseId]
  | cons pr rest ih =>
    intro k k' hne
    unfold eraseId
    split
    · rename_i hk
      subst hk
      simp only [lookupId]
      rw [if_neg (fun hc => hne hc.symm)]
    · simp only [lookupId]
      split
      · rfl
      · exact ih hne

/-! Memory lemmas. -/

theorem memGet_append {mem : Memory} {r : Nat} (o : Order) (h : r < mem.length) :
    memGet (mem ++ [o]) r = memGet mem r := by
  unfold memGet
  exact List.getD_append _ _ _ _ h

theorem memGet_set_self {mem : Memory} {r : Nat} (o : Order) (h : r < mem.length) :
    memGet (memSet mem r o) r = o := by
  unfold memGet memSet
  exact getD_set_self _ _ _ h

theorem memGet_set_ne {mem : Memory} {r r' : Nat} (o : Order) (h : r ≠ r') :
    memGet (memSet mem r o) r' = memGet mem r' := by
  unfold memGet memSet
  exact getD_set_ne _ _ h

theorem length_memSet (mem : Memory) (r : Nat) (o : Order) :
    (memSet mem r o).length = mem.length := List.length_set mem r o

theorem memGet_mem {mem : Memory} {r : Nat} (h : r < mem.length) :
    memGet mem r ∈ mem := getD_mem h

/-! Order-object lemmas. -/

theorem fill_fields (o : Order) (a : Int) :
    (o.fill a).symbol = o.symbol ∧ (o.fill a).side = o.side ∧
    (o.fill a).order_type = o.order_type ∧ (o.fill a).quantity = o.quantity ∧
    (o.fill a).price = o.price ∧ (o.fill a).order_id = o.order_id ∧
    (o.fill a).timestamp = o.timestamp := by
  unfold Order.fill
  split
  · simp
  · split
    all_goals dsimp only
    all_goals split
    all_goals try split
    all_goals simp

theorem cancel_fields (o : Order) :
    o.cancel.symbol = o.symbol ∧ o.cancel.side = o.side ∧
    o.cancel.order_type = o.order_type ∧ o.cancel.quantity = o.quantity ∧
    o.cancel.price = o.price ∧ o.cancel.order_id = o.order_id ∧
    o.cancel.timestamp = o.timestamp ∧
    o.cancel.filled_quantity = o.filled_quantity := by
  unfold Order.cancel
  split <;> simp

/-- `cancel` on a filled or already cancelled order is the identity. -/
theorem cancel_terminal {o : Order} (h : o.status = "CANCELLED" ∨ o.is_filled) :
    o.cancel = o := by
  unfold Order.cancel
  rw [if_neg]
  rintro ⟨hnf, hnc⟩
  rcases h with h | h
  · exact hnc h
  · exact hnf h

/-- An order that is live after `cancel` was already live before (in
fact `cancel` never leaves a live status behind on a live order, so the
only way is that `cancel` was the identity). -/
theorem cancel_live {o : Order} (h : isLive o.cancel) : isLive o := by
  unfold Order.cancel at h
  split at h
  · unfold isLive at h
    simp at h
  · exact h

/-- A live well-formed order is not fully filled. -/
theorem live_not_filled {o : Order} (hw : OrderWf o) (hl : isLive o) :
    ¬ o.is_filled := by
  obtain ⟨-, -, -, hq, hf0, hfq, hopen, hpf, -⟩ := hw
  unfold Order.is_filled Order.remaining_quantity
  rcases hl with h | h
  · have := hopen h
    omega
  · have := hpf h
    omega

/-- `cancel` on a live well-formed order marks it `CANCELLED`. -/
theorem cancel_of_live {o : Order} (hw : OrderWf o) (hl : isLive o) :
    o.cancel.status = "CANCELLED" := by
  unfold Order.cancel
  split
  · rfl
  · rename_i hcond
    rw [not_and_or] at hcond
    rcases hcond with h | h
    · exact absurd (live_not_filled hw hl) (by simpa using h)
    · simp at h
      rcases hl with hh | hh <;> rw [hh] at h <;> simp at h

/-- `cancel` preserves a `CANCELLED` status. -/
theorem cancel_keeps_cancelled {o : Order} (h : o.status = "CANCELLED") :
    o.cancel.status = "CANCELLED" := by
  rw [cancel_terminal (Or.inl h)]
  exact h

/-- Characterization of a positive `fill` on a well-formed order: the
clamped amount moves `filled_quantity` to some `F` between the old value
and `quantity`, and the status becomes `FILLED` exactly on completion,
`PARTIALLY_FILLED` otherwise. -/
theorem fill_pos_spec {o : Order} (hw : OrderWf o) {a : Int} (ha : ¬ a ≤ 0) :
    ∃ F S, o.fill a = { o with filled_quantity := F, status := S } ∧
      o.filled_quantity ≤ F ∧ F ≤ o.quantity ∧ 0 < F ∧
      ((S = "FILLED" ∧ o.quantity ≤ F) ∨
        (S = "PARTIALLY_FILLED" ∧ F < o.quantity)) := by
  obtain ⟨h1, h2, h3, h4, h5, h6, h7, h8, h9⟩ := hw
  unfold Order.fill
  rw [if_neg ha]
  split
  all_goals dsimp only
  all_goals rename_i hclamp
  all_goals rw [not_le] at ha
  · simp only [Order.remaining_quantity] at hclamp
    split
    · rename_i hif
      simp only [Order.is_filled, Order.remaining_quantity] at hif
      refine ⟨o.filled_quantity + o.remaining_quantity, "FILLED", rfl,
        by simp only [Order.remaining_quantity]; omega,
        by simp only [Order.remaining_quantity]; omega,
        by simp only [Order.remaining_quantity]; omega,
        Or.inl ⟨rfl, by simp only [Order.remaining_quantity]; omega⟩⟩
    · rename_i hif
      split
      · rename_i hpos
        simp only [Order.is_filled, Order.remaining_quantity] at hif
        refine ⟨o.filled_quantity + o.remaining_quantity, "PARTIALLY_FILLED", rfl,
          by simp only [Order.remaining_quantity]; omega,
          by simp only [Order.remaining_quantity]; omega,
          by simp only [Order.remaining_quantity]; omega,
          Or.inr ⟨rfl, by simp only [Order.remaining_quantity]; omega⟩⟩
      · rename_i hpos
        exfalso
        simp only [Order.is_filled, Order.remaining_quantity] at hif
        simp only [not_lt] at hpos
        simp only [Order.remaining_quantity] at hif hpos
        omega
  · simp only [Order.remaining_quantity, not_lt] at hclamp
    split
    · rename_i hif
      simp only [Order.is_filled, Order.remaining_quantity] at hif
      exact ⟨o.filled_quantity + a, "FILLED", rfl, by omega, by omega, by omega,
        Or.inl ⟨rfl, by omega⟩⟩
    · rename_i hif
      split
      · rename_i hpos
        simp only [Order.is_filled, Order.remaining_quantity] at hif
        exact ⟨o.filled_quantity + a, "PARTIALLY_FILLED", rfl, by omega, by omega,
          by omega, Or.inr ⟨rfl, by omega⟩⟩
      · rename_i hpos
        exfalso
        simp only [Order.is_filled, Order.remaining_quantity] at hif
        simp only [not_lt] at hpos
        omega

/-- `fill` preserves well-formedness. -/
theorem fill_wf {o : Order} (hw : OrderWf o) (a : Int) : OrderWf (o.fill a) := by
  by_cases hle : a ≤ 0
  · unfold Order.fill
    rw [if_pos hle]
    exact hw
  · obtain ⟨F, S, heq, hfF, hFq, hF0, hS⟩ := fill_pos_spec hw hle
    obtain ⟨h1, h2, h3, h4, h5, h6, h7, h8, h9⟩ := hw
    rw [heq]
    unfold OrderWf
    dsimp only
    refine ⟨h1, h2, ?_, h4, by omega, hFq, ?_, ?_, ?_⟩
    · rcases hS with ⟨rfl, -⟩ | ⟨rfl, -⟩
      · exact Or.inr (Or.inr (Or.inl rfl))
      · exact Or.inr (Or.inl rfl)
    · intro h
      rcases hS with ⟨rfl, -⟩ | ⟨rfl, -⟩
      · exact absurd h (by decide)
      · exact absurd h (by decide)
    · intro h
      rcases hS with ⟨rfl, -⟩ | ⟨hpf, hlt⟩
      · exact absurd h (by decide)
      · exact ⟨hF0, hlt⟩
    · intro h
      rcases hS with ⟨rfl, hge⟩ | ⟨rfl, -⟩
      · omega
      · exact absurd h (by decide)

/-- `cancel` preserves well-formedness. -/
theorem cancel_wf {o : Order} (hw : OrderWf o) : OrderWf o.cancel := by
  obtain ⟨h1, h2, h3, h4, h5, h6, h7, h8, h9⟩ := hw
  unfold Order.cancel
  split
  · unfold OrderWf
    dsimp only
    refine ⟨h1, h2, Or.inr (Or.inr (Or.inr rfl)), h4, h5, h6, ?_, ?_, ?_⟩
    · intro h; exact absurd h (by decide)
    · intro h; exact absurd h (by decide)
    · intro h; exact absurd h (by decide)
  · exact ⟨h1, h2, h3, h4, h5, h6, h7, h8, h9⟩

/-- A successfully constructed order is well-formed. -/
theorem construct_wf {sy si ot : String} {q : Int} {pr : Option ℚ} {oid : String}
    {ts : ℚ} {o : Order} (h : Order.construct sy si ot q pr oid ts = .ok o) :
    OrderWf o := by
  unfold Order.construct at h
  split at h
  · simp at h
  · split at h
    · simp at h
    · split at h
      · simp at h
      · rename_i hside htype hprice
        push_neg at hside
        dsimp only at h
        split at h
        · simp at h
        · split at h
          · simp at h
          · rename_i hq hsym
            rw [not_le] at hq
            obtain rfl : _ = o := by
              simpa using h
            unfold OrderWf
            dsimp only
            refine ⟨hside, ?_, Or.inl rfl, hq, le_refl 0, by omega, fun _ => rfl, ?_, ?_⟩
            · intro hlim
              rw [if_neg (by rw [hlim]; decide : ¬ ot = "MARKET")]
              rw [not_and_or] at hprice
              rcases hprice with hc | hc
              · exact absurd hlim hc
              · rw [not_le] at hc
                rcases pr with _ | p
                · simp at hc
                · exact ⟨p, rfl, by simpa using hc⟩
            · intro hpf
              exact absurd hpf (by decide)
            · intro hfl
              exact absurd hfl (by decide)

/-- Any order an external caller can produce from a constructed order is
well-formed. -/
theorem applyOps_wf {o : Order} (hw : OrderWf o) :
    ∀ ops, OrderWf (applyOps o ops) := by
  intro ops
  induction ops generalizing o with
  | nil => exact hw
  | cons op rest ih =>
    rcases op with _ | a
    · exact ih (cancel_wf hw)
    · exact ih (fill_wf hw a)

/-! Preservation of the book invariant by each operation. -/

theorem memGet_default {mem : Memory} {r : Nat} (h : mem.length ≤ r) :
    memGet mem r = default :=
  List.getD_eq_default _ _ h

/-- A fresh book satisfies the invariant. -/
theorem inv_init {sym : String} {b : OrderBook} (h : OrderBook.init sym = .ok b) :
    BookInv b [] := by
  unfold OrderBook.init at h
  split at h
  · simp at h
  · rename_i hsym
    obtain rfl : _ = b := by simpa using h
    refine ⟨hsym, by simp, by simp, by simp, by simp, by simp, ?_, ?_, ?_, by simp,
      by simp, by simp, by simp⟩
    · intro j hj0 hjl
      simp at hjl
    · intro j hj0 hjl
      simp at hjl
    · intro e he
      simp at he

/-- Creating a new order object preserves the invariant. -/
theorem inv_newOrder {b : OrderBook} {mem : Memory} {o : Order}
    (hinv : BookInv b mem) (hw : OrderWf o) : BookInv b (mem ++ [o]) := by
  obtain ⟨hsym, hmem, hnd, hmap, hbw, haw, hbh, hah, hlim, hbc, hac, hbn, han⟩ := hinv
  have hget : ∀ r, r < mem.length → memGet (mem ++ [o]) r = memGet mem r :=
    fun r hr => memGet_append o hr
  refine ⟨hsym, ?_, hnd, ?_, ?_, ?_, hbh, hah, ?_, ?_, ?_, ?_, ?_⟩
  · intro o' ho'
    rcases List.mem_append.mp ho' with h | h
    · exact hmem o' h
    · obtain rfl : o' = o := by simpa using h
      exact hw
  · intro pr hpr
    obtain ⟨hr, hid, hlive, hs, ht⟩ := hmap pr hpr
    rw [List.length_append]
    exact ⟨by omega, by rw [hget pr.2 hr]; exact hid, by rw [hget pr.2 hr]; exact hlive,
      by rw [hget pr.2 hr]; exact hs, by rw [hget pr.2 hr]; exact ht⟩
  · intro e he
    obtain ⟨hr, hside, hty, hp, ht⟩ := hbw e he
    unfold EntryWf
    rw [List.length_append]
    exact ⟨by omega, by rw [hget e.ref hr]; exact hside, by rw [hget e.ref hr]; exact hty,
      by rw [hget e.ref hr]; exact hp, by rw [hget e.ref hr]; exact ht⟩
  · intro e he
    obtain ⟨hr, hside, hty, hp, ht⟩ := haw e he
    unfold EntryWf
    rw [List.length_append]
    exact ⟨by omega, by rw [hget e.ref hr]; exact hside, by rw [hget e.ref hr]; exact hty,
      by rw [hget e.ref hr]; exact hp, by rw [hget e.ref hr]; exact ht⟩
  · intro e he hlive
    have hr : e.ref < mem.length := by
      rcases he with h | h
      · exact (hbw e h).1
      · exact (haw e h).1
    rw [hget e.ref hr] at hlive ⊢
    exact hlim e he hlive
  · intro pr hpr hside
    have hr : pr.2 < mem.length := (hmap pr hpr).1
    rw [hget pr.2 hr] at hside
    exact hbc pr hpr hside
  · intro pr hpr hside
    have hr : pr.2 < mem.length := (hmap pr hpr).1
    rw [hget pr.2 hr] at hside
    exact hac pr hpr hside
  · have : b.bids.filter (liveRef (mem ++ [o])) = b.bids.filter (liveRef mem) := by
      apply List.filter_congr
      intro e he
      unfold liveRef
      rw [hget e.ref (hbw e he).1]
    rw [this]
    exact hbn
  · have : b.asks.filter (liveRef (mem ++ [o])) = b.asks.filter (liveRef mem) := by
      apply List.filter_congr
      intro e he
      unfold liveRef
      rw [hget e.ref (haw e he).1]
    rw [this]
    exact han

/-- The lazy cleanup inside `get_best_bid` preserves the invariant. -/
theorem inv_bestBid {b : OrderBook} {mem : Memory} {b' : OrderBook}
    {res : Option ℚ} (hinv : BookInv b mem)
    (h : OrderBook.get_best_bid b mem = (b', .ok res)) : BookInv b' mem := by
  obtain ⟨hsym, hmem, hnd, hmap, hbw, haw, hbh, hah, hlim, hbc, hac, hbn, han⟩ := hinv
  unfold OrderBook.get_best_bid at h
  rcases hcl : clean_heap_top mem b.bids with ⟨h1, e⟩
  rcases e with _ | e
  · rw [hcl] at h
    obtain rfl : b' = { b with bids := h1 } := ((congrArg Prod.fst h).symm : _)
    obtain ⟨hinv1, -, -⟩ := clean_spec hbh hcl
    have hsub := clean_sub hbh hcl
    refine ⟨hsym, hmem, hnd, hmap, ?_, haw, hinv1, hah, ?_, ?_, hac, ?_, han⟩
    · intro e he
      exact hbw e (hsub e he)
    · intro e he hlive
      rcases he with h | h
      · exact hlim e (Or.inl (hsub e h)) hlive
      · exact hlim e (Or.inr h) hlive
    · intro pr hpr hside
      obtain ⟨e, he, heref⟩ := hbc pr hpr hside
      refine ⟨e, ?_, heref⟩
      apply clean_keeps_live hbh hcl e he
      rw [heref]
      exact (hmap pr hpr).2.2.1
    · have hperm := (clean_live_perm hbh hcl).map Entry.ref
      exact hperm.nodup_iff.mp hbn
  · rw [hcl] at h
    simp at h

/-- The lazy cleanup inside `get_best_ask` preserves the invariant. -/
theorem inv_bestAsk {b : OrderBook} {mem : Memory} {b' : OrderBook}
    {res : Option ℚ} (hinv : BookInv b mem)
    (h : OrderBook.get_best_ask b mem = (b', .ok res)) : BookInv b' mem := by
  obtain ⟨hsym, hmem, hnd, hmap, hbw, haw, hbh, hah, hlim, hbc, hac, hbn, han⟩ := hinv
  unfold OrderBook.get_best_ask at h
  rcases hcl : clean_heap_top mem b.asks with ⟨h1, e⟩
  rcases e with _ | e
  · rw [hcl] at h
    obtain rfl : b' = { b with asks := h1 } := ((congrArg Prod.fst h).symm : _)
    obtain ⟨hinv1, -, -⟩ := clean_spec hah hcl
    have hsub := clean_sub hah hcl
    refine ⟨hsym, hmem, hnd, hmap, hbw, ?_, hbh, hinv1, ?_, hbc, ?_, hbn, ?_⟩
    · intro e he
      exact haw e (hsub e he)
    · intro e he hlive
      rcases he with h | h
      · exact hlim e (Or.inl h) hlive
      · exact hlim e (Or.inr (hsub e h)) hlive
    · intro pr hpr hside
      obtain ⟨e, he, heref⟩ := hac pr hpr hside
      refine ⟨e, ?_, heref⟩
      apply clean_keeps_live hah hcl e he
      rw [heref]
      exact (hmap pr hpr).2.2.1
    · have hperm := (clean_live_perm hah hcl).map Entry.ref
      exact hperm.nodup_iff.mp han
  · rw [hcl] at h
    simp at h

/-- `remove_order` preserves the invariant: the removed order leaves the
map, is cancelled in place, and its heap entries become stale. -/
theorem inv_remove {b : OrderBook} {mem : Memory} {oid : String} {b' : OrderBook}
    {mem' : Memory} {res : Option Nat} (hinv : BookInv b mem)
    (h : OrderBook.remove_order b mem oid = (b', mem', res)) : BookInv b' mem' := by
  obtain ⟨hsym, hmem, hnd, hmap, hbw, haw, hbh, hah, hlim, hbc, hac, hbn, han⟩ := hinv
  unfold OrderBook.remove_order at h
  rcases hlook : lookupId b.orders_map oid with _ | r
  · rw [hlook] at h
    simp only [Prod.mk.injEq] at h
    obtain ⟨rfl, rfl, -⟩ := h
    exact ⟨hsym, hmem, hnd, hmap, hbw, haw, hbh, hah, hlim, hbc, hac, hbn, han⟩
  · rw [hlook] at h
    simp only [Prod.mk.injEq] at h
    obtain ⟨rfl, rfl, -⟩ := h
    have hprm : (oid, r) ∈ b.orders_map := lookupId_mem hlook
    obtain ⟨hr, hid, hlive, hs, ht⟩ := hmap _ hprm
    have hwo : OrderWf (memGet mem r) := hmem _ (memGet_mem hr)
    have hcanc : (Order.cancel (memGet mem r)).status = "CANCELLED" :=
      cancel_of_live hwo hlive
    have hEnd : ((eraseId b.orders_map oid).map Prod.fst).Nodup :=
      ((eraseId_sublist _ _).map Prod.fst).nodup hnd
    have heref : ∀ pr ∈ eraseId b.orders_map oid, pr.2 ≠ r := by
      rintro ⟨p1, p2⟩ hpr hpre
      dsimp only at hpre
      have hpr_m : (p1, p2) ∈ b.orders_map := (eraseId_sublist _ _).subset hpr
      have hfst : p1 = oid := by
        have h1 := (hmap _ hpr_m).2.1
        dsimp only at h1
        rw [hpre, hid] at h1
        exact h1.symm
      subst hfst
      have h1 : lookupId (eraseId b.orders_map p1) p1 = some p2 := mem_lookupId hEnd hpr
      have h2 : lookupId (eraseId b.orders_map p1) p1 = none := lookupId_eraseId_self hnd
      rw [h1] at h2
      exact absurd h2 (by simp)
    have hgetne : ∀ s, s ≠ r →
        memGet (memSet mem r (Order.cancel (memGet mem r))) s = memGet mem s := by
      intro s hsne
      exact memGet_set_ne _ (fun hc => hsne hc.symm)
    have hnotlive : ∀ s, s = r →
        ¬ isLive (memGet (memSet mem r (Order.cancel (memGet mem r))) s) := by
      rintro s rfl hlv
      rw [memGet_set_self _ hr] at hlv
      unfold isLive at hlv
      rw [hcanc] at hlv
      simp at hlv
    refine ⟨hsym, ?_, hEnd, ?_, ?_, ?_, hbh, hah, ?_, ?_, ?_, ?_, ?_⟩
    · intro o' ho'
      unfold memSet at ho'
      rcases List.mem_or_eq_of_mem_set ho' with h | rfl
      · exact hmem o' h
      · exact cancel_wf hwo
    · intro pr hpr
      have hpr_m : pr ∈ b.orders_map := (eraseId_sublist _ _).subset hpr
      obtain ⟨hr2, hid2, hlive2, hs2, ht2⟩ := hmap pr hpr_m
      have hne := heref pr hpr
      rw [length_memSet]
      rw [hgetne pr.2 hne]
      exact ⟨hr2, hid2, hlive2, hs2, ht2⟩
    · intro e he
      obtain ⟨hr2, hside2, hty2, hp2, ht2⟩ := hbw e he
      unfold EntryWf
      rw [length_memSet]
      by_cases he_r : e.ref = r
      · obtain ⟨c1, c2, c3, c4, c5, c6, c7, c8⟩ := cancel_fields (memGet mem r)
        rw [he_r, memGet_set_self _ hr]
        rw [he_r] at hside2 hty2 hp2 ht2
        exact ⟨hr, by rw [c2]; exact hside2, by rw [c3]; exact hty2,
          by rw [c5]; exact hp2, by rw [c7]; exact ht2⟩
      · rw [hgetne e.ref he_r]
        exact ⟨hr2, hside2, hty2, hp2, ht2⟩
    · intro e he
      obtain ⟨hr2, hside2, hty2, hp2, ht2⟩ := haw e he
      unfold EntryWf
      rw [length_memSet]
      by_cases he_r : e.ref = r
      · obtain ⟨c1, c2, c3, c4, c5, c6, c7, c8⟩ := cancel_fields (memGet mem r)
        rw [he_r, memGet_set_self _ hr]
        rw [he_r] at hside2 hty2 hp2 ht2
        exact ⟨hr, by rw [c2]; exact hside2, by rw [c3]; exact hty2,
          by rw [c5]; exact hp2, by rw [c7]; exact ht2⟩
      · rw [hgetne e.ref he_r]
        exact ⟨hr2, hside2, hty2, hp2, ht2⟩
    · intro e he hlv
      by_cases he_r : e.ref = r
      · exact absurd hlv (hnotlive e.ref he_r)
      · rw [hgetne e.ref he_r] at hlv ⊢
        have hold := hlim e he hlv
        have hidne : (memGet mem e.ref).order_id ≠ oid := by
          intro hc
          rw [hc, hlook] at hold
          exact he_r (by simpa using hold.symm)
        rw [lookupId_eraseId_ne hidne]
        exact hold
    · intro pr hpr hside
      have hpr_m : pr ∈ b.orders_map := (eraseId_sublist _ _).subset hpr
      have hne := heref pr hpr
      rw [hgetne pr.2 hne] at hside
      exact hbc pr hpr_m hside
    · intro pr hpr hside
      have hpr_m : pr ∈ b.orders_map := (eraseId_sublist _ _).subset hpr
      have hne := heref pr hpr
      rw [hgetne pr.2 hne] at hside
      exact hac pr hpr_m hside
    · refine (List.Sublist.map Entry.ref (List.monotone_filter_right _ ?_)).nodup hbn
      intro e hlv
      unfold liveRef at hlv ⊢
      rw [decide_eq_true_eq] at hlv ⊢
      by_cases he_r : e.ref = r
      · exact absurd hlv (hnotlive e.ref he_r)
      · rw [hgetne e.ref he_r] at hlv
        exact hlv
    · refine (List.Sublist.map Entry.ref (List.monotone_filter_right _ ?_)).nodup han
      intro e hlv
      unfold liveRef at hlv ⊢
      rw [decide_eq_true_eq] at hlv ⊢
      by_cases he_r : e.ref = r
      · exact absurd hlv (hnotlive e.ref he_r)
      · rw [hgetne e.ref he_r] at hlv
        exact hlv

/-- `add_order` preserves the invariant. -/
theorem inv_add {b : OrderBook} {mem : Memory} {r : Nat} {b' : OrderBook}
    {res : Option Nat} (hinv : BookInv b mem)
    (h : OrderBook.add_order b mem r = (b', .ok res)) : BookInv b' mem := by
  obtain ⟨hsym, hmem, hnd, hmap, hbw, haw, hbh, hah, hlim, hbc, hac, hbn, han⟩ := hinv
  unfold OrderBook.add_order at h
  dsimp only at h
  split at h
  · exact absurd (congrArg Prod.snd h) (by simp)
  · split at h
    · simp only [Prod.mk.injEq] at h
      obtain ⟨rfl, -⟩ := h
      exact ⟨hsym, hmem, hnd, hmap, hbw, haw, hbh, hah, hlim, hbc, hac, hbn, han⟩
    · split at h
      · simp only [Prod.mk.injEq] at h
        obtain ⟨rfl, -⟩ := h
        exact ⟨hsym, hmem, hnd, hmap, hbw, haw, hbh, hah, hlim, hbc, hac, hbn, han⟩
      · rename_i hs hty hlv
        rw [not_not] at hs hty
        rw [not_not] at hlv
        have hr : r < mem.length := by
          by_contra hge
          rw [not_lt] at hge
          rw [memGet_default hge] at hs
          have hd : (default : Order).symbol = "" := rfl
          rw [hd] at hs
          exact hsym hs.symm
        have hwo : OrderWf (memGet mem r) := hmem _ (memGet_mem hr)
        split at h
        · -- duplicate id in the map
          rename_i r' hlookup
          split at h
          all_goals simp only [Prod.mk.injEq] at h
          all_goals obtain ⟨rfl, -⟩ := h
          all_goals exact ⟨hsym, hmem, hnd, hmap, hbw, haw, hbh, hah, hlim, hbc, hac, hbn, han⟩
        · rename_i hlookup
          have hnotin : (memGet mem r).order_id ∉ b.orders_map.map Prod.fst :=
            lookupId_none_iff.mp hlookup
          obtain ⟨p, hpeq, hppos⟩ := hwo.2.1 hty
          split at h
          · -- BUY side
            rename_i hside
            split at h
            · -- heappush succeeded
              rename_i h1 hpush
              simp only [Prod.mk.injEq] at h
              obtain ⟨rfl, -⟩ := h
              obtain ⟨hinv1, hperm⟩ := heappush_spec hbh hpush
              refine ⟨hsym, hmem, ?_, ?_, ?_, haw, hinv1, hah, ?_, ?_, ?_, ?_, han⟩
              · rw [List.map_append]
                rw [List.nodup_append]
                refine ⟨hnd, by simp, ?_⟩
                intro a ha ha2
                simp at ha2
                rw [ha2] at ha
                exact hnotin ha
              · intro pr hpr
                rcases List.mem_append.mp hpr with hold | hnew
                · exact hmap pr hold
                · obtain rfl : pr = ((memGet mem r).order_id, r) := by simpa using hnew
                  exact ⟨hr, rfl, hlv, hs, hty⟩
              · intro e he
                rcases List.mem_append.mp (hperm.mem_iff.mp he) with hold | hnew
                · exact hbw e hold
                · obtain rfl : e = ⟨-((memGet mem r).price.getD 0),
                      (memGet mem r).timestamp, r⟩ := by simpa using hnew
                  exact ⟨hr, hside, hty, ⟨p, hpeq, hppos, by rw [hpeq]; simp⟩, rfl⟩
              · intro e he hlive
                rcases he with he | he
                · rcases List.mem_append.mp (hperm.mem_iff.mp he) with hold | hnew
                  · exact lookupId_append_some (hlim e (Or.inl hold) hlive)
                  · obtain rfl : e = ⟨-((memGet mem r).price.getD 0),
                        (memGet mem r).timestamp, r⟩ := by simpa using hnew
                    rw [lookupId_append_none hlookup]
                    simp [lookupId]
                · exact lookupId_append_some (hlim e (Or.inr he) hlive)
              · intro pr hpr hside2
                rcases List.mem_append.mp hpr with hold | hnew
                · obtain ⟨e, he, heref⟩ := hbc pr hold hside2
                  exact ⟨e, hperm.symm.mem_iff.mp (List.mem_append.mpr (Or.inl he)), heref⟩
                · obtain rfl : pr = ((memGet mem r).order_id, r) := by simpa using hnew
                  refine ⟨⟨-((memGet mem r).price.getD 0), (memGet mem r).timestamp, r⟩,
                    ?_, rfl⟩
                  exact hperm.symm.mem_iff.mp (List.mem_append.mpr (Or.inr (by simp)))
              · intro pr hpr hside2
                rcases List.mem_append.mp hpr with hold | hnew
                · exact hac pr hold hside2
                · obtain rfl : pr = ((memGet mem r).order_id, r) := by simpa using hnew
                  dsimp only at hside2
                  rw [hside] at hside2
                  exact absurd hside2 (by decide)
              · have hperm2 := (hperm.filter (liveRef mem)).map Entry.ref
                refine hperm2.nodup_iff.mpr ?_
                rw [List.filter_append]
                have hfe : List.filter (liveRef mem) [(⟨-((memGet mem r).price.getD 0),
                    (memGet mem r).timestamp, r⟩ : Entry)] =
                    [⟨-((memGet mem r).price.getD 0), (memGet mem r).timestamp, r⟩] := by
                  have hl : liveRef mem (⟨-((memGet mem r).price.getD 0),
                      (memGet mem r).timestamp, r⟩ : Entry) = true := by
                    unfold liveRef
                    rw [decide_eq_true_eq]
                    exact hlv
                  simp [List.filter_singleton, hl]
                rw [hfe, List.map_append]
                rw [List.nodup_append]
                refine ⟨hbn, by simp, ?_⟩
                intro a ha ha2
                simp only [List.map_cons, List.map_nil, List.mem_cons,
                  List.not_mem_nil, or_false] at ha2
                subst ha2
                obtain ⟨e, hef, heref⟩ := by
                  simpa using List.mem_map.mp ha
                have hlive_e : isLive (memGet mem e.ref) := by
                  have := hef.2
                  unfold liveRef at this
                  rwa [decide_eq_true_eq] at this
                have := hlim e (Or.inl hef.1) hlive_e
                rw [heref] at this
                rw [hlookup] at this
                simp at this
            · -- heappush raised: result is an error, not ok
              exact absurd (congrArg Prod.snd h) (by simp)
          · split at h
            · -- SELL side
              rename_i hnb hside
              split at h
              · rename_i h1 hpush
                simp only [Prod.mk.injEq] at h
                obtain ⟨rfl, -⟩ := h
                obtain ⟨hinv1, hperm⟩ := heappush_spec hah hpush
                refine ⟨hsym, hmem, ?_, ?_, hbw, ?_, hbh, hinv1, ?_, ?_, ?_, hbn, ?_⟩
                · rw [List.map_append]
                  rw [List.nodup_append]
                  refine ⟨hnd, by simp, ?_⟩
                  intro a ha ha2
                  simp at ha2
                  rw [ha2] at ha
                  exact hnotin ha
                · intro pr hpr
                  rcases List.mem_append.mp hpr with hold | hnew
                  · exact hmap pr hold
                  · obtain rfl : pr = ((memGet mem r).order_id, r) := by simpa using hnew
                    exact ⟨hr, rfl, hlv, hs, hty⟩
                · intro e he
                  rcases List.mem_append.mp (hperm.mem_iff.mp he) with hold | hnew
                  · exact haw e hold
                  · obtain rfl : e = ⟨(memGet mem r).price.getD 0,
                        (memGet mem r).timestamp, r⟩ := by simpa using hnew
                    exact ⟨hr, hside, hty, ⟨p, hpeq, hppos, by rw [hpeq]; simp⟩, rfl⟩
                · intro e he hlive
                  rcases he with he | he
                  · exact lookupId_append_some (hlim e (Or.inl he) hlive)
                  · rcases List.mem_append.mp (hperm.mem_iff.mp he) with hold | hnew
                    · exact lookupId_append_some (hlim e (Or.inr hold) hlive)
                    · obtain rfl : e = ⟨(memGet mem r).price.getD 0,
                          (memGet mem r).timestamp, r⟩ := by simpa using hnew
                      rw [lookupId_append_none hlookup]
                      simp [lookupId]
                · intro pr hpr hside2
                  rcases List.mem_append.mp hpr with hold | hnew
                  · exact hbc pr hold hside2
                  · obtain rfl : pr = ((memGet mem r).order_id, r) := by simpa using hnew
                    dsimp only at hside2
                    rw [hside] at hside2
                    exact absurd hside2 (by decide)
                · intro pr hpr hside2
                  rcases List.mem_append.mp hpr with hold | hnew
                  · obtain ⟨e, he, heref⟩ := hac pr hold hside2
                    exact ⟨e, hperm.symm.mem_iff.mp (List.mem_append.mpr (Or.inl he)), heref⟩
                  · obtain rfl : pr = ((memGet mem r).order_id, r) := by simpa using hnew
                    refine ⟨⟨(memGet mem r).price.getD 0, (memGet mem r).timestamp, r⟩,
                      ?_, rfl⟩
                    exact hperm.symm.mem_iff.mp (List.mem_append.mpr (Or.inr (by simp)))
                · have hperm2 := (hperm.filter (liveRef mem)).map Entry.ref
                  refine hperm2.nodup_iff.mpr ?_
                  rw [List.filter_append]
                  have hfe : List.filter (liveRef mem) [(⟨(memGet mem r).price.getD 0,
                      (memGet mem r).timestamp, r⟩ : Entry)] =
                      [⟨(memGet mem r).price.getD 0, (memGet mem r).timestamp, r⟩] := by
                    have hl : liveRef mem (⟨(memGet mem r).price.getD 0,
                        (memGet mem r).timestamp, r⟩ : Entry) = true := by
                      unfold liveRef
                      rw [decide_eq_true_eq]
                      exact hlv
                    simp [List.filter_singleton, hl]
                  rw [hfe, List.map_append]
                  rw [List.nodup_append]
                  refine ⟨han, by simp, ?_⟩
                  intro a ha ha2
                  simp only [List.map_cons, List.map_nil, List.mem_cons,
                    List.not_mem_nil, or_false] at ha2
                  subst ha2
                  obtain ⟨e, hef, heref⟩ := by
                    simpa using List.mem_map.mp ha
                  have hlive_e : isLive (memGet mem e.ref) := by
                    have := hef.2
                    unfold liveRef at this
                    rwa [decide_eq_true_eq] at this
                  have := hlim e (Or.inr hef.1) hlive_e
                  rw [heref] at this
                  rw [hlookup] at this
                  simp at this
              · exact absurd (congrArg Prod.snd h) (by simp)
            · -- side neither BUY nor SELL: impossible for a well-formed order
              rename_i hnb hns
              exfalso
              rcases hwo.1 with hh | hh
              · exact hnb hh
              · exact hns hh

/-- After deleting the key that mapped to `r`, no surviving map entry
references `r` (given per-entry id coherence and unique keys). -/
theorem erased_ref_ne {m : List (String × Nat)} {mem : Memory} {oid : String} {r : Nat}
    (hnd : (m.map Prod.fst).Nodup)
    (hids : ∀ pr ∈ m, (memGet mem pr.2).order_id = pr.1)
    (hlook : lookupId m oid = some r) :
    ∀ pr ∈ eraseId m oid, pr.2 ≠ r := by
  have hEnd : ((eraseId m oid).map Prod.fst).Nodup :=
    ((eraseId_sublist _ _).map Prod.fst).nodup hnd
  have hidr : (memGet mem r).order_id = oid := by
    have := hids _ (lookupId_mem hlook)
    exact this
  rintro ⟨p1, p2⟩ hpr hpre
  dsimp only at hpre
  have hpr_m : (p1, p2) ∈ m := (eraseId_sublist _ _).subset hpr
  have hfst : p1 = oid := by
    have h1 := hids _ hpr_m
    dsimp only at h1
    rw [hpre, hidr] at h1
    exact h1.symm
  subst hfst
  have h1 : lookupId (eraseId m p1) p1 = some p2 := mem_lookupId hEnd hpr
  have h2 : lookupId (eraseId m p1) p1 = none := lookupId_eraseId_self hnd
  rw [h1] at h2
  exact absurd h2 (by simp)

/-- `pop_best_bid_order` preserves the invariant. -/
theorem inv_popBid {b : OrderBook} {mem : Memory} {b' : OrderBook}
    {res : Option Nat} (hinv : BookInv b mem)
    (h : OrderBook.pop_best_bid_order b mem = (b', .ok res)) : BookInv b' mem := by
  obtain ⟨hsym, hmem, hnd, hmap, hbw, haw, hbh, hah, hlim, hbc, hac, hbn, han⟩ := hinv
  unfold OrderBook.pop_best_bid_order at h
  rcases hcl : clean_heap_top mem b.bids with ⟨h1, e⟩
  rcases e with _ | e
  · rw [hcl] at h
    dsimp only at h
    obtain ⟨hinv1, ⟨rem, hpermc, hdead⟩, htop⟩ := clean_spec hbh hcl
    have hsub := clean_sub hbh hcl
    have hkeep := clean_keeps_live hbh hcl
    have hlperm := clean_live_perm hbh hcl
    by_cases hne : h1 = []
    · rw [if_pos hne] at h
      simp only [Prod.mk.injEq] at h
      obtain ⟨rfl, -⟩ := h
      refine ⟨hsym, hmem, hnd, hmap, ?_, haw, hinv1, hah, ?_, ?_, hac, ?_, han⟩
      · intro e he
        exact hbw e (hsub e he)
      · intro e he hlive
        rcases he with h | h
        · exact hlim e (Or.inl (hsub e h)) hlive
        · exact hlim e (Or.inr h) hlive
      · intro pr hpr hside
        obtain ⟨e, he, heref⟩ := hbc pr hpr hside
        refine ⟨e, ?_, heref⟩
        apply hkeep e he
        rw [heref]
        exact (hmap pr hpr).2.2.1
      · exact ((hlperm.map Entry.ref).nodup_iff.mp hbn)
    · rw [if_neg hne] at h
      rcases hpp : heappop h1 with ⟨⟨h2, ret⟩, e2⟩
      rcases e2 with _ | e2
      · rw [hpp] at h
        dsimp only at h
        obtain ⟨hret, hinv2, hperm2⟩ := heappop_spec hne hinv1 hpp
        have hretmem1 : ret ∈ h1 := hperm2.mem_iff.mp (List.mem_cons_self _ _)
        have hretlive : isLive (memGet mem ret.ref) := by
          rw [hret]
          exact htop hne
        have hretbids : ret ∈ b.bids := hsub ret hretmem1
        have hlook : lookupId b.orders_map (memGet mem ret.ref).order_id = some ret.ref :=
          hlim ret (Or.inl hretbids) hretlive
        rw [hlook] at h
        simp only [Option.isSome_some, if_true] at h
        simp only [Prod.mk.injEq] at h
        obtain ⟨rfl, -⟩ := h
        have hmem2 : ∀ e ∈ h2, e ∈ h1 := by
          intro e he
          exact hperm2.mem_iff.mp (List.mem_cons_of_mem _ he)
        have hEnd : ((eraseId b.orders_map (memGet mem ret.ref).order_id).map
            Prod.fst).Nodup := ((eraseId_sublist _ _).map Prod.fst).nodup hnd
        have heref := erased_ref_ne hnd (fun pr hpr => (hmap pr hpr).2.1) hlook
        have hln1 : ((h1.filter (liveRef mem)).map Entry.ref).Nodup :=
          (hlperm.map Entry.ref).nodup_iff.mp hbn
        have hretlref : liveRef mem ret = true := by
          unfold liveRef
          rw [decide_eq_true_eq]
          exact hretlive
        have hfcons : List.filter (liveRef mem) (ret :: h2) =
            ret :: List.filter (liveRef mem) h2 := by
          simp [List.filter_cons, hretlref]
        have hln2 : (ret.ref :: (h2.filter (liveRef mem)).map Entry.ref).Nodup := by
          have hx := ((hperm2.filter (liveRef mem)).map Entry.ref).nodup_iff.mpr hln1
          rw [hfcons, List.map_cons] at hx
          exact hx
        obtain ⟨hrnotin, hln3⟩ := List.nodup_cons.mp hln2
        have hrefne : ∀ e ∈ h2, isLive (memGet mem e.ref) → e.ref ≠ ret.ref := by
          intro e he hl hc
          apply hrnotin
          rw [← hc]
          refine List.mem_map_of_mem Entry.ref (List.mem_filter.mpr ⟨he, ?_⟩)
          unfold liveRef
          rw [decide_eq_true_eq]
          exact hl
        refine ⟨hsym, hmem, hEnd, ?_, ?_, haw, hinv2, hah, ?_, ?_, ?_, hln3, han⟩
        · intro pr hpr
          exact hmap pr ((eraseId_sublist _ _).subset hpr)
        · intro e he
          exact hbw e (hsub e (hmem2 e he))
        · intro e he hlv
          rcases he with he | he
          · have hold := hlim e (Or.inl (hsub e (hmem2 e he))) hlv
            have hidne : (memGet mem e.ref).order_id ≠ (memGet mem ret.ref).order_id := by
              intro hc
              rw [hc, hlook] at hold
              exact hrefne e he hlv (by simp at hold; omega)
            rw [lookupId_eraseId_ne hidne]
            exact hold
          · have hold := hlim e (Or.inr he) hlv
            have hidne : (memGet mem e.ref).order_id ≠ (memGet mem ret.ref).order_id := by
              intro hc
              rw [hc, hlook] at hold
              have hceq : e.ref = ret.ref := by simp at hold; omega
              have hsa : (memGet mem e.ref).side = "SELL" := (haw e he).2.1
              have hsb : (memGet mem ret.ref).side = "BUY" := (hbw ret hretbids).2.1
              rw [hceq, hsb] at hsa
              exact absurd hsa (by decide)
            rw [lookupId_eraseId_ne hidne]
            exact hold
        · intro pr hpr hside
          have hpr_m : pr ∈ b.orders_map := (eraseId_sublist _ _).subset hpr
          obtain ⟨e, he, heref2⟩ := hbc pr hpr_m hside
          have helive : isLive (memGet mem e.ref) := by
            rw [heref2]
            exact (hmap pr hpr_m).2.2.1
          have he1 : e ∈ h1 := hkeep e he helive
          rcases List.mem_cons.mp (hperm2.symm.mem_iff.mp he1) with heq | he2
          · exfalso
            apply heref pr hpr
            rw [← heref2, heq]
          · exact ⟨e, he2, heref2⟩
        · intro pr hpr hside
          exact hac pr ((eraseId_sublist _ _).subset hpr) hside
      · rw [hpp] at h
        simp at h
  · rw [hcl] at h
    simp at h

/-- `pop_best_ask_order` preserves the invariant. -/
theorem inv_popAsk {b : OrderBook} {mem : Memory} {b' : OrderBook}
    {res : Option Nat} (hinv : BookInv b mem)
    (h : OrderBook.pop_best_ask_order b mem = (b', .ok res)) : BookInv b' mem := by
  obtain ⟨hsym, hmem, hnd, hmap, hbw, haw, hbh, hah, hlim, hbc, hac, hbn, han⟩ := hinv
  unfold OrderBook.pop_best_ask_order at h
  rcases hcl : clean_heap_top mem b.asks with ⟨h1, e⟩
  rcases e with _ | e
  · rw [hcl] at h
    dsimp only at h
    obtain ⟨hinv1, ⟨rem, hpermc, hdead⟩, htop⟩ := clean_spec hah hcl
    have hsub := clean_sub hah hcl
    have hkeep := clean_keeps_live hah hcl
    have hlperm := clean_live_perm hah hcl
    by_cases hne : h1 = []
    · rw [if_pos hne] at h
      simp only [Prod.mk.injEq] at h
      obtain ⟨rfl, -⟩ := h
      refine ⟨hsym, hmem, hnd, hmap, hbw, ?_, hbh, hinv1, ?_, hbc, ?_, hbn, ?_⟩
      · intro e he
        exact haw e (hsub e he)
      · intro e he hlive
        rcases he with h | h
        · exact hlim e (Or.inl h) hlive
        · exact hlim e (Or.inr (hsub e h)) hlive
      · intro pr hpr hside
        obtain ⟨e, he, heref⟩ := hac pr hpr hside
        refine ⟨e, ?_, heref⟩
        apply hkeep e he
        rw [heref]
        exact (hmap pr hpr).2.2.1
      · exact ((hlperm.map Entry.ref).nodup_iff.mp han)
    · rw [if_neg hne] at h
      rcases hpp : heappop h1 with ⟨⟨h2, ret⟩, e2⟩
      rcases e2 with _ | e2
      · rw [hpp] at h
        dsimp only at h
        obtain ⟨hret, hinv2, hperm2⟩ := heappop_spec hne hinv1 hpp
        have hretmem1 : ret ∈ h1 := hperm2.mem_iff.mp (List.mem_cons_self _ _)
        have hretlive : isLive (memGet mem ret.ref) := by
          rw [hret]
          exact htop hne
        have hretasks : ret ∈ b.asks := hsub ret hretmem1
        have hlook : lookupId b.orders_map (memGet mem ret.ref).order_id = some ret.ref :=
          hlim ret (Or.inr hretasks) hretlive
        rw [hlook] at h
        simp only [Option.isSome_some, if_true] at h
        simp only [Prod.mk.injEq] at h
        obtain ⟨rfl, -⟩ := h
        have hmem2 : ∀ e ∈ h2, e ∈ h1 := by
          intro e he
          exact hperm2.mem_iff.mp (List.mem_cons_of_mem _ he)
        have hEnd : ((eraseId b.orders_map (memGet mem ret.ref).order_id).map
            Prod.fst).Nodup := ((eraseId_sublist _ _).map Prod.fst).nodup hnd
        have heref := erased_ref_ne hnd (fun pr hpr => (hmap pr hpr).2.1) hlook
        have hln1 : ((h1.filter (liveRef mem)).map Entry.ref).Nodup :=
          (hlperm.map Entry.ref).nodup_iff.mp han
        have hretlref : liveRef mem ret = true := by
          unfold liveRef
          rw [decide_eq_true_eq]
          exact hretlive
        have hfcons : List.filter (liveRef mem) (ret :: h2) =
            ret :: List.filter (liveRef mem) h2 := by
          simp [List.filter_cons, hretlref]
        have hln2 : (ret.ref :: (h2.filter (liveRef mem)).map Entry.ref).Nodup := by
          have hx := ((hperm2.filter (liveRef mem)).map Entry.ref).nodup_iff.mpr hln1
          rw [hfcons, List.map_cons] at hx
          exact hx
        obtain ⟨hrnotin, hln3⟩ := List.nodup_cons.mp hln2
        have hrefne : ∀ e ∈ h2, isLive (memGet mem e.ref) → e.ref ≠ ret.ref := by
          intro e he hl hc
          apply hrnotin
          rw [← hc]
          refine List.mem_map_of_mem Entry.ref (List.mem_filter.mpr ⟨he, ?_⟩)
          unfold liveRef
          rw [decide_eq_true_eq]
          exact hl
        refine ⟨hsym, hmem, hEnd, ?_, ?_, ?_, hbh, hinv2, ?_, ?_, ?_, hbn, hln3⟩
        · intro pr hpr
          exact hmap pr ((eraseId_sublist _ _).subset hpr)
        · intro e he
          exact hbw e he
        · intro e he
          exact haw e (hsub e (hmem2 e he))
        · intro e he hlv
          rcases he with he | he
          · have hold := hlim e (Or.inl he) hlv
            have hidne : (memGet mem e.ref).order_id ≠ (memGet mem ret.ref).order_id := by
              intro hc
              rw [hc, hlook] at hold
              have hceq : e.ref = ret.ref := by simp at hold; omega
              have hsa : (memGet mem e.ref).side = "BUY" := (hbw e he).2.1
              have hsb : (memGet mem ret.ref).side = "SELL" := (haw ret hretasks).2.1
              rw [hceq, hsb] at hsa
              exact absurd hsa (by decide)
            rw [lookupId_eraseId_ne hidne]
            exact hold
          · have hold := hlim e (Or.inr (hsub e (hmem2 e he))) hlv
            have hidne : (memGet mem e.ref).order_id ≠ (memGet mem ret.ref).order_id := by
              intro hc
              rw [hc, hlook] at hold
              exact hrefne e he hlv (by simp at hold; omega)
            rw [lookupId_eraseId_ne hidne]
            exact hold
        · intro pr hpr hside
          exact hbc pr ((eraseId_sublist _ _).subset hpr) hside
        · intro pr hpr hside
          have hpr_m : pr ∈ b.orders_map := (eraseId_sublist _ _).subset hpr
          obtain ⟨e, he, heref2⟩ := hac pr hpr_m hside
          have helive : isLive (memGet mem e.ref) := by
            rw [heref2]
            exact (hmap pr hpr_m).2.2.1
          have he1 : e ∈ h1 := hkeep e he helive
          rcases List.mem_cons.mp (hperm2.symm.mem_iff.mp he1) with heq | he2
          · exfalso
            apply heref pr hpr
            rw [← heref2, heq]
          · exact ⟨e, he2, heref2⟩
      · rw [hpp] at h
        simp at h
  · rw [hcl] at h
    simp at h

/-- Every operation step preserves the invariant. -/
theorem step_inv {b : OrderBook} {mem : Memory} {b' : OrderBook} {mem' : Memory}
    (hinv : BookInv b mem) (hs : Step b mem b' mem') : BookInv b' mem' := by
  cases hs with
  | newOrder sy si ot q pr oid ts o ops hc =>
    exact inv_newOrder hinv (applyOps_wf (construct_wf hc) ops)
  | add r b2 res2 hh => exact inv_add hinv hh
  | remove oid b2 mem2 res2 hh => exact inv_remove hinv hh
  | bestBid b2 res2 hh => exact inv_bestBid hinv hh
  | bestAsk b2 res2 hh => exact inv_bestAsk hinv hh
  | popBid b2 res2 hh => exact inv_popBid hinv hh
  | popAsk b2 res2 hh => exact inv_popAsk hinv hh

/-- Sequences of steps preserve the invariant. -/
theorem steps_inv {b : OrderBook} {mem : Memory} {b' : OrderBook} {mem' : Memory}
    (hinv : BookInv b mem) (hs : Steps b mem b' mem') : BookInv b' mem' := by
  induction hs with
  | refl => exact hinv
  | tail _ hstep ih => exact step_inv ih hstep

/-- Every reachable book state satisfies the invariant. -/
theorem reachable_inv {b : OrderBook} {mem : Memory} (h : Reachable b mem) :
    BookInv b mem := by
  induction h with
  | init sym b hi => exact inv_init hi
  | step hr hs ih => exact step_inv ih hs

/-- Reachability is closed under steps. -/
theorem reachable_steps {b : OrderBook} {mem : Memory} {b' : OrderBook} {mem' : Memory}
    (h : Reachable b mem) (hs : Steps b mem b' mem') : Reachable b' mem' := by
  induction hs with
  | refl => exact h
  | tail _ hstep ih => exact Reachable.step ih hstep

/-- On a cleaned nonempty bid heap, the top entry references the live
bid with the highest price, ties broken by the earliest timestamp. -/
theorem bid_top_choice {b : OrderBook} {mem : Memory} {h1 : List Entry}
    (hinv : BookInv b mem) (hinv1 : HeapInv h1) (hne : h1 ≠ [])
    (hsub : ∀ e ∈ h1, e ∈ b.bids)
    (hkeep : ∀ e ∈ b.bids, isLive (memGet mem e.ref) → e ∈ h1)
    (hlive : isLive (memGet mem (h1.getD 0 default).ref)) :
    BestBidChoice b mem (h1.getD 0 default).ref := by
  obtain ⟨hsym, hmem, hnd, hmap, hbw, haw, hbh, hah, hlim, hbc, hac, hbn, han⟩ := hinv
  have hlen : 0 < h1.length := List.length_pos.mpr hne
  have htop_mem : h1.getD 0 default ∈ h1 := getD_mem hlen
  have htop_bids : h1.getD 0 default ∈ b.bids := hsub _ htop_mem
  refine ⟨⟨hlive, (hbw _ htop_bids).2.1, hlim _ (Or.inl htop_bids) hlive⟩, ?_⟩
  intro pr hpr hside
  obtain ⟨e, he, heref⟩ := hbc pr hpr hside
  have helive : isLive (memGet mem e.ref) := by
    rw [heref]
    exact (hmap pr hpr).2.2.1
  have he1 : e ∈ h1 := hkeep e he helive
  obtain ⟨i, hi, hie⟩ := List.mem_iff_getElem.mp he1
  have hkey : keyLe (h1.getD 0 default) (h1.getD i default) := heapInv_root_le hinv1 i hi
  rw [List.getD_eq_getElem _ _ hi, hie] at hkey
  obtain ⟨-, -, -, ⟨pt, hpt, -, hpt2⟩, htt⟩ := hbw _ htop_bids
  obtain ⟨-, -, -, ⟨pe, hpe, -, hpe2⟩, hte⟩ := hbw e he
  rw [if_pos rfl] at hpt2
  rw [if_pos rfl] at hpe2
  unfold keyLe at hkey
  rw [hpt2, hpe2, htt, hte] at hkey
  unfold priceOf tsOf
  rw [← heref, hpe, hpt]
  simp only [Option.getD_some]
  rcases hkey with hk | ⟨hk1, hk2⟩
  · left
    linarith
  · right
    exact ⟨by linarith, hk2⟩

/-- On a cleaned nonempty ask heap, the top entry references the live
ask with the lowest price, ties broken by the earliest timestamp. -/
theorem ask_top_choice {b : OrderBook} {mem : Memory} {h1 : List Entry}
    (hinv : BookInv b mem) (hinv1 : HeapInv h1) (hne : h1 ≠ [])
    (hsub : ∀ e ∈ h1, e ∈ b.asks)
    (hkeep : ∀ e ∈ b.asks, isLive (memGet mem e.ref) → e ∈ h1)
    (hlive : isLive (memGet mem (h1.getD 0 default).ref)) :
    BestAskChoice b mem (h1.getD 0 default).ref := by
  obtain ⟨hsym, hmem, hnd, hmap, hbw, haw, hbh, hah, hlim, hbc, hac, hbn, han⟩ := hinv
  have hlen : 0 < h1.length := List.length_pos.mpr hne
  have htop_mem : h1.getD 0 default ∈ h1 := getD_mem hlen
  have htop_asks : h1.getD 0 default ∈ b.asks := hsub _ htop_mem
  refine ⟨⟨hlive, (haw _ htop_asks).2.1, hlim _ (Or.inr htop_asks) hlive⟩, ?_⟩
  intro pr hpr hside
  obtain ⟨e, he, heref⟩ := hac pr hpr hside
  have helive : isLive (memGet mem e.ref) := by
    rw [heref]
    exact (hmap pr hpr).2.2.1
  have he1 : e ∈ h1 := hkeep e he helive
  obtain ⟨i, hi, hie⟩ := List.mem_iff_getElem.mp he1
  have hkey : keyLe (h1.getD 0 default) (h1.getD i default) := heapInv_root_le hinv1 i hi
  rw [List.getD_eq_getElem _ _ hi, hie] at hkey
  obtain ⟨-, -, -, ⟨pt, hpt, -, hpt2⟩, htt⟩ := haw _ htop_asks
  obtain ⟨-, -, -, ⟨pe, hpe, -, hpe2⟩, hte⟩ := haw e he
  rw [if_neg Bool.false_ne_true] at hpt2
  rw [if_neg Bool.false_ne_true] at hpe2
  unfold keyLe at hkey
  rw [hpt2, hpe2, htt, hte] at hkey
  unfold priceOf tsOf
  rw [← heref, hpe, hpt]
  simp only [Option.getD_some]
  rcases hkey with hk | ⟨hk1, hk2⟩
  · left
    exact hk
  · right
    exact ⟨hk1, hk2⟩

/-- `get_best_bid` returning a price identifies a best live bid. -/
theorem best_bid_obs {b : OrderBook} {mem : Memory} {b' : OrderBook} {q : ℚ}
    (hinv : BookInv b mem)
    (h : OrderBook.get_best_bid b mem = (b', .ok (some q))) :
    ∃ r, BestBidChoice b mem r ∧ priceOf mem r = q := by
  have hbh := hinv.bids_heap
  unfold OrderBook.get_best_bid at h
  rcases hcl : clean_heap_top mem b.bids with ⟨h1, e⟩
  rcases e with _ | e
  · rw [hcl] at h
    dsimp only at h
    obtain ⟨hinv1, -, htop⟩ := clean_spec hbh hcl
    have hsub := clean_sub hbh hcl
    have hkeep := clean_keeps_live hbh hcl
    by_cases hne : h1 = []
    · rw [if_pos hne] at h
      simp at h
    · rw [if_neg hne] at h
      simp only [Prod.mk.injEq, Except.ok.injEq, Option.some.injEq] at h
      obtain ⟨-, hq⟩ := h
      have hchoice := bid_top_choice hinv hinv1 hne hsub hkeep (htop hne)
      refine ⟨(h1.getD 0 default).ref, hchoice, ?_⟩
      obtain ⟨-, -, -, ⟨pt, hpt, -, hpt2⟩, -⟩ :=
        hinv.bids_wf _ (hsub _ (getD_mem (List.length_pos.mpr hne)))
      rw [if_pos rfl] at hpt2
      unfold priceOf
      rw [hpt]
      simp only [Option.getD_some]
      rw [← hq, hpt2]
      ring
  · rw [hcl] at h
    simp at h

/-- `get_best_ask` returning a price identifies a best live ask. -/
theorem best_ask_obs {b : OrderBook} {mem : Memory} {b' : OrderBook} {q : ℚ}
    (hinv : BookInv b mem)
    (h : OrderBook.get_best_ask b mem = (b', .ok (some q))) :
    ∃ r, BestAskChoice b mem r ∧ priceOf mem r = q := by
  have hah := hinv.asks_heap
  unfold OrderBook.get_best_ask at h
  rcases hcl : clean_heap_top mem b.asks with ⟨h1, e⟩
  rcases e with _ | e
  · rw [hcl] at h
    dsimp only at h
    obtain ⟨hinv1, -, htop⟩ := clean_spec hah hcl
    have hsub := clean_sub hah hcl
    have hkeep := clean_keeps_live hah hcl
    by_cases hne : h1 = []
    · rw [if_pos hne] at h
      simp at h
    · rw [if_neg hne] at h
      simp only [Prod.mk.injEq, Except.ok.injEq, Option.some.injEq] at h
      obtain ⟨-, hq⟩ := h
      have hchoice := ask_top_choice hinv hinv1 hne hsub hkeep (htop hne)
      refine ⟨(h1.getD 0 default).ref, hchoice, ?_⟩
      obtain ⟨-, -, -, ⟨pt, hpt, -, hpt2⟩, -⟩ :=
        hinv.asks_wf _ (hsub _ (getD_mem (List.length_pos.mpr hne)))
      rw [if_neg Bool.false_ne_true] at hpt2
      unfold priceOf
      rw [hpt]
      simp only [Option.getD_some]
      rw [← hq, hpt2]
  · rw [hcl] at h
    simp at h

/-- `pop_best_bid_order` returning an order returns a best live bid. -/
theorem pop_bid_obs {b : OrderBook} {mem : Memory} {b' : OrderBook} {r : Nat}
    (hinv : BookInv b mem)
    (h : OrderBook.pop_best_bid_order b mem = (b', .ok (some r))) :
    BestBidChoice b mem r := by
  have hbh := hinv.bids_heap
  unfold OrderBook.pop_best_bid_order at h
  rcases hcl : clean_heap_top mem b.bids with ⟨h1, e⟩
  rcases e with _ | e
  · rw [hcl] at h
    dsimp only at h
    obtain ⟨hinv1, -, htop⟩ := clean_spec hbh hcl
    have hsub := clean_sub hbh hcl
    have hkeep := clean_keeps_live hbh hcl
    by_cases hne : h1 = []
    · rw [if_pos hne] at h
      simp at h
    · rw [if_neg hne] at h
      rcases hpp : heappop h1 with ⟨⟨h2, ret⟩, e2⟩
      rcases e2 with _ | e2
      · rw [hpp] at h
        dsimp only at h
        obtain ⟨hret, -, -⟩ := heappop_spec hne hinv1 hpp
        have hchoice := bid_top_choice hinv hinv1 hne hsub hkeep (htop hne)
        have hr : ret.ref = r := by
          rcases hx : lookupId b.orders_map (memGet mem ret.ref).order_id with _ | rx
          · rw [hx] at h
            simp at h
            exact h.2
          · rw [hx] at h
            simp at h
            exact h.2
        rw [← hr, hret]
        exact hchoice
      · rw [hpp] at h
        simp at h
  · rw [hcl] at h
    simp at h

/-- `pop_best_ask_order` returning an order returns a best live ask. -/
theorem pop_ask_obs {b : OrderBook} {mem : Memory} {b' : OrderBook} {r : Nat}
    (hinv : BookInv b mem)
    (h : OrderBook.pop_best_ask_order b mem = (b', .ok (some r))) :
    BestAskChoice b mem r := by
  have hah := hinv.asks_heap
  unfold OrderBook.pop_best_ask_order at h
  rcases hcl : clean_heap_top mem b.asks with ⟨h1, e⟩
  rcases e with _ | e
  · rw [hcl] at h
    dsimp only at h
    obtain ⟨hinv1, -, htop⟩ := clean_spec hah hcl
    have hsub := clean_sub hah hcl
    have hkeep := clean_keeps_live hah hcl
    by_cases hne : h1 = []
    · rw [if_pos hne] at h
      simp at h
    · rw [if_neg hne] at h
      rcases hpp : heappop h1 with ⟨⟨h2, ret⟩, e2⟩
      rcases e2 with _ | e2
      · rw [hpp] at h
        dsimp only at h
        obtain ⟨hret, -, -⟩ := heappop_spec hne hinv1 hpp
        have hchoice := ask_top_choice hinv hinv1 hne hsub hkeep (htop hne)
        have hr : ret.ref = r := by
          rcases hx : lookupId b.orders_map (memGet mem ret.ref).order_id with _ | rx
          · rw [hx] at h
            simp at h
            exact h.2
          · rw [hx] at h
            simp at h
            exact h.2
        rw [← hr, hret]
        exact hchoice
      · rw [hpp] at h
        simp at h
  · rw [hcl] at h
    simp at h

/-- A single successful operation never revives a cancelled order:
memory cells holding a `CANCELLED` order keep that status. -/
theorem step_keeps_cancelled {b : OrderBook} {mem : Memory} {b' : OrderBook}
    {mem' : Memory} {r : Nat} (hs : Step b mem b' mem')
    (h : (memGet mem r).status = "CANCELLED") :
    (memGet mem' r).status = "CANCELLED" := by
  cases hs with
  | newOrder sy si ot q pr oid ts o ops hc =>
    by_cases hr : r < mem.length
    · rw [memGet_append _ hr]
      exact h
    · rw [memGet_default (le_of_not_lt hr)] at h
      exact absurd h (by decide)
  | add r2 b2 res2 hh => exact h
  | remove oid b2 mem2 res hrm =>
    unfold OrderBook.remove_order at hrm
    rcases hx : lookupId b.orders_map oid with _ | r'
    · rw [hx] at hrm
      dsimp only at hrm
      injection hrm with h1 h2
      injection h2 with h2 h3
      subst h2
      exact h
    · rw [hx] at hrm
      dsimp only at hrm
      injection hrm with h1 h2
      injection h2 with h2 h3
      subst h2
      by_cases hrr : r = r'
      · subst hrr
        by_cases hlen : r < mem.length
        · rw [memGet_set_self _ hlen]
          exact cancel_keeps_cancelled h
        · unfold memSet
          rw [List.set_eq_of_length_le (le_of_not_lt hlen)]
          exact h
      · rw [memGet_set_ne _ (fun hc => hrr hc.symm)]
        exact h
  | bestBid b2 res hh => exact h
  | bestAsk b2 res hh => exact h
  | popBid b2 res hh => exact h
  | popAsk b2 res hh => exact h

/-- Any number of successful operations never revives a cancelled
order. -/
theorem steps_keeps_cancelled {b : OrderBook} {mem : Memory} {b' : OrderBook}
    {mem' : Memory} {r : Nat} (hs : Steps b mem b' mem')
    (h : (memGet mem r).status = "CANCELLED") :
    (memGet mem' r).status = "CANCELLED" := by
  induction hs with
  | refl => exact h
  | tail hs1 hstep ih => exact step_keeps_cancelled hstep ih

/-- The state `wB3`/`wMem` (three live limit orders and one rejected
market order) is reachable from a fresh book for symbol `S`. -/
theorem reach_wB3 : Reachable wB3 wMem := by
  have s0 : Reachable { symbol := "S", bids := [], asks := [], orders_map := [] } [] :=
    Reachable.init "S" _ rfl
  have s1 : Reachable { symbol := "S", bids := [], asks := [], orders_map := [] } [wO1] :=
    s0.step (Step.newOrder _ _ "S" "BUY" "LIMIT" 10 (some 99) "a" 1 wO1 [] rfl)
  have s2 : Reachable { symbol := "S", bids := [⟨-99, 1, 0⟩], asks := [], orders_map := [("a", 0)] } [wO1] :=
    s1.step (Step.add _ _ 0 _ (some 0) rfl)
  have s3 : Reachable { symbol := "S", bids := [⟨-99, 1, 0⟩], asks := [], orders_map := [("a", 0)] } [wO1, wO2] :=
    s2.step (Step.newOrder _ _ "S" "BUY" "LIMIT" 10 (some 100) "b" 2 wO2 [] rfl)
  have s4 : Reachable { symbol := "S", bids := [⟨-100, 2, 1⟩, ⟨-99, 1, 0⟩], asks := [], orders_map := [("a", 0), ("b", 1)] } [wO1, wO2] :=
    s3.step (Step.add _ _ 1 _ (some 1) rfl)
  have s5 : Reachable { symbol := "S", bids := [⟨-100, 2, 1⟩, ⟨-99, 1, 0⟩], asks := [], orders_map := [("a", 0), ("b", 1)] } [wO1, wO2, wO3] :=
    s4.step (Step.newOrder _ _ "S" "SELL" "LIMIT" 10 (some 101) "c" 3 wO3 [] rfl)
  have s6 : Reachable wB3 [wO1, wO2, wO3] :=
    s5.step (Step.add _ _ 2 _ (some 2) rfl)
  have s7 : Reachable wB3 wMem :=
    s6.step (Step.newOrder _ _ "S" "BUY" "MARKET" 10 none "d" 4 wO4 [] rfl)
  exact s7

/-- The tie state `tB1`/`tMem` (one live bid plus an unadded order with
identical price and timestamp) is reachable. -/
theorem reach_tB1 : Reachable tB1 tMem := by
  have s0 : Reachable { symbol := "S", bids := [], asks := [], orders_map := [] } [] :=
    Reachable.init "S" _ rfl
  have s1 : Reachable { symbol := "S", bids := [], asks := [], orders_map := [] } [wO1] :=
    s0.step (Step.newOrder _ _ "S" "BUY" "LIMIT" 10 (some 99) "a" 1 wO1 [] rfl)
  have s2 : Reachable tB1 [wO1] :=
    s1.step (Step.add _ _ 0 _ (some 0) rfl)
  have s3 : Reachable tB1 tMem :=
    s2.step (Step.newOrder _ _ "S" "BUY" "LIMIT" 10 (some 99) "t" 1 tO2 [] rfl)
  exact s3

/-! Case analysis of `add_order` on its rejection and error paths. -/

theorem add_order_wrong_symbol {b : OrderBook} {mem : Memory} {r : Nat}
    (h : (memGet mem r).symbol ≠ b.symbol) :
    OrderBook.add_order b mem r = (b, .error .valueError) := by
  unfold OrderBook.add_order
  dsimp only
  rw [if_pos h]

theorem add_order_not_limit {b : OrderBook} {mem : Memory} {r : Nat}
    (h1 : (memGet mem r).symbol = b.symbol)
    (h2 : (memGet mem r).order_type ≠ "LIMIT") :
    OrderBook.add_order b mem r = (b, .ok none) := by
  unfold OrderBook.add_order
  dsimp only
  rw [if_neg (not_not_intro h1), if_pos h2]

theorem add_order_not_live {b : OrderBook} {mem : Memory} {r : Nat}
    (h1 : (memGet mem r).symbol = b.symbol)
    (h3 : ¬ isLive (memGet mem r)) :
    OrderBook.add_order b mem r = (b, .ok none) := by
  unfold OrderBook.add_order
  dsimp only
  rw [if_neg (not_not_intro h1)]
  by_cases h2 : (memGet mem r).order_type = "LIMIT"
  · rw [if_neg (not_not_intro h2), if_pos h3]
  · rw [if_pos h2]

theorem add_order_dup {b : OrderBook} {mem : Memory} {r r' : Nat}
    (h1 : (memGet mem r).symbol = b.symbol)
    (h2 : (memGet mem r).order_type = "LIMIT")
    (h3 : isLive (memGet mem r))
    (hl : lookupId b.orders_map (memGet mem r).order_id = some r')
    (hne : r' ≠ r) :
    OrderBook.add_order b mem r = (b, .ok none) := by
  unfold OrderBook.add_order
  dsimp only
  rw [if_neg (not_not_intro h1), if_neg (not_not_intro h2),
    if_neg (not_not_intro h3), hl]
  dsimp only
  rw [if_neg hne]

theorem add_order_idem {b : OrderBook} {mem : Memory} {r : Nat}
    (h1 : (memGet mem r).symbol = b.symbol)
    (h2 : (memGet mem r).order_type = "LIMIT")
    (h3 : isLive (memGet mem r))
    (hl : lookupId b.orders_map (memGet mem r).order_id = some r) :
    OrderBook.add_order b mem r = (b, .ok (some r)) := by
  unfold OrderBook.add_order
  dsimp only
  rw [if_neg (not_not_intro h1), if_neg (not_not_intro h2),
    if_neg (not_not_intro h3), hl]
  dsimp only
  rw [if_pos rfl]

/-! Further `fill` lemmas feeding the fill-monotonicity claim. -/

theorem fill_nonpos {o : Order} {a : Int} (ha : a ≤ 0) : o.fill a = o := by
  unfold Order.fill
  rw [if_pos ha]

theorem fill_clamp {o : Order} {a : Int} (ha : 0 < a)
    (hov : o.remaining_quantity < a) :
    (o.fill a).filled_quantity = o.quantity := by
  have hna : ¬ a ≤ 0 := by omega
  have hc : a > o.remaining_quantity := hov
  unfold Order.fill
  rw [if_neg hna]
  dsimp only
  rw [if_pos hc]
  split
  · dsimp only
    unfold Order.remaining_quantity
    ring
  · split
    · dsimp only
      unfold Order.remaining_quantity
      ring
    · dsimp only
      unfold Order.remaining_quantity
      ring

theorem fill_partial {o : Order} {a : Int} (hw : OrderWf o) (ha : ¬ a ≤ 0)
    (hlt : (o.fill a).filled_quantity < o.quantity) :
    (o.fill a).status = "PARTIALLY_FILLED" := by
  obtain ⟨F, S, heq, h1, h2, h3, hcase⟩ := fill_pos_spec hw ha
  rw [heq] at hlt ⊢
  dsimp only at hlt ⊢
  rcases hcase with ⟨hS, hge⟩ | ⟨hS, -⟩
  · omega
  · exact hS

theorem fill_keeps_filled {o : Order} {a : Int}
    (hfq : o.filled_quantity ≤ o.quantity) (hf : o.is_filled) :
    (o.fill a).filled_quantity = o.filled_quantity := by
  by_cases ha : a ≤ 0
  · rw [fill_nonpos ha]
  · have hf' : o.quantity - o.filled_quantity ≤ 0 := hf
    have hrem : o.remaining_quantity = 0 := by
      unfold Order.remaining_quantity
      omega
    have hc : a > o.remaining_quantity := by
      rw [hrem]
      omega
    unfold Order.fill
    rw [if_neg ha]
    dsimp only
    rw [if_pos hc, hrem]
    split
    · dsimp only
      omega
    · split
      · dsimp only
        omega
      · dsimp only
        omega

/-- A fully filled order marked `FILLED` is a fixed point of `fill` up
to its fill state. -/
theorem fill_preserves_full {o : Order} {a : Int}
    (h1 : o.filled_quantity = o.quantity) (h2 : o.status = "FILLED") :
    (o.fill a).filled_quantity = (o.fill a).quantity ∧
      (o.fill a).status = "FILLED" := by
  by_cases ha : a ≤ 0
  · rw [fill_nonpos ha]
    exact ⟨h1, h2⟩
  · have hc : a > o.remaining_quantity := by
      unfold Order.remaining_quantity
      omega
    have hfil : ({ o with filled_quantity :=
        o.filled_quantity + o.remaining_quantity } : Order).is_filled := by
      unfold Order.is_filled Order.remaining_quantity
      dsimp only
      omega
    unfold Order.fill
    rw [if_neg ha]
    dsimp only
    rw [if_pos hc, if_pos hfil]
    refine ⟨?_, rfl⟩
    dsimp only
    unfold Order.remaining_quantity
    omega

/-- A positive fill that lands exactly on the full quantity sets status
`FILLED`. -/
theorem fill_status_of_eq {o : Order} {a : Int} (ha : ¬ a ≤ 0)
    (h : (o.fill a).filled_quantity = (o.fill a).quantity) :
    (o.fill a).status = "FILLED" := by
  unfold Order.fill at h ⊢
  rw [if_neg ha] at h ⊢
  dsimp only at h ⊢
  revert h
  generalize (if a > o.remaining_quantity then o.remaining_quantity else a) = c
  intro h
  by_cases hfil : ({ o with filled_quantity :=
      o.filled_quantity + c } : Order).is_filled
  · rw [if_pos hfil]
  · rw [if_neg hfil] at h ⊢
    exfalso
    apply hfil
    unfold Order.is_filled Order.remaining_quantity
    dsimp only
    split at h <;> dsimp only at h <;> omega

theorem fillAll_cons (o : Order) (a : Int) (rest : List Int) :
    fillAll o (a :: rest) = fillAll (o.fill a) rest := rfl

theorem fillAll_preserves_full {amts : List Int} : ∀ {o : Order},
    o.filled_quantity = o.quantity → o.status = "FILLED" →
    (fillAll o amts).filled_quantity = (fillAll o amts).quantity ∧
      (fillAll o amts).status = "FILLED" := by
  induction amts with
  | nil => intro o h1 h2; exact ⟨h1, h2⟩
  | cons a rest ih =>
    intro o h1 h2
    rw [fillAll_cons]
    have hp := @fill_preserves_full o a h1 h2
    exact ih hp.1 hp.2

theorem fillAll_reaches {amts : List Int} : ∀ {o : Order},
    0 ≤ o.filled_quantity → o.filled_quantity < o.quantity →
    o.quantity ≤ o.filled_quantity + amts.sum → (∀ a ∈ amts, 0 < a) →
    (fillAll o amts).filled_quantity = (fillAll o amts).quantity ∧
      (fillAll o amts).status = "FILLED" := by
  induction amts with
  | nil =>
    intro o h0 hlt hsum hpos
    simp only [List.sum_nil] at hsum
    exact absurd hlt (by omega)
  | cons a rest ih =>
    intro o h0 hlt hsum hpos
    have ha : 0 < a := hpos a (List.mem_cons_self a rest)
    have hna : ¬ a ≤ 0 := by omega
    have hq : (o.fill a).quantity = o.quantity := (fill_fields o a).2.2.2.1
    simp only [List.sum_cons] at hsum
    rw [fillAll_cons]
    by_cases hfull : (o.fill a).filled_quantity = o.quantity
    · have hfe : (o.fill a).filled_quantity = (o.fill a).quantity := by
        rw [hq]
        exact hfull
      have hst : (o.fill a).status = "FILLED" := fill_status_of_eq hna hfe
      exact fillAll_preserves_full hfe hst
    · have hnc : ¬ o.remaining_quantity < a := fun hov => hfull (fill_clamp ha hov)
      have hc2 : ¬ a > o.remaining_quantity := hnc
      have hfq : (o.fill a).filled_quantity = o.filled_quantity + a := by
        unfold Order.fill
        rw [if_neg hna]
        dsimp only
        rw [if_neg hc2]
        split
        · dsimp only
        · split
          · dsimp only
          · dsimp only
      have hrem : a ≤ o.quantity - o.filled_quantity := by
        unfold Order.remaining_quantity at hnc
        omega
      have hne : o.filled_quantity + a ≠ o.quantity := by
        rw [← hfq]
        exact hfull
      refine ih (by rw [hfq]; omega) ?_ ?_
        (fun x hx => hpos x (List.mem_cons_of_mem a hx))
      · rw [hfq, hq]
        omega
      · rw [hfq, hq]
        omega

/-! The claims. -/

/-- C1 (corrected): `add_order` rejects a MARKET order, a non-live
order and a duplicate id bound to a different object by returning
`none` to the caller, and re-adding the identical live order object
succeeds idempotently, returning the order; but — contrary to the
specification — a symbol mismatch is not a rejection: it raises
`ValueError` (`C1_wrong_symbol_raises` exhibits this on a reachable
state). -/
theorem C1_add_rejections (b : OrderBook) (mem : Memory) (r : Nat) :
    ((memGet mem r).symbol ≠ b.symbol →
      OrderBook.add_order b mem r = (b, .error .valueError)) ∧
    ((memGet mem r).symbol = b.symbol → (memGet mem r).order_type ≠ "LIMIT" →
      OrderBook.add_order b mem r = (b, .ok none)) ∧
    ((memGet mem r).symbol = b.symbol → ¬ isLive (memGet mem r) →
      OrderBook.add_order b mem r = (b, .ok none)) ∧
    (∀ r', (memGet mem r).symbol = b.symbol →
      (memGet mem r).order_type = "LIMIT" → isLive (memGet mem r) →
      lookupId b.orders_map (memGet mem r).order_id = some r' → r' ≠ r →
      OrderBook.add_order b mem r = (b, .ok none)) ∧
    ((memGet mem r).symbol = b.symbol →
      (memGet mem r).order_type = "LIMIT" → isLive (memGet mem r) →
      lookupId b.orders_map (memGet mem r).order_id = some r →
      OrderBook.add_order b mem r = (b, .ok (some r))) :=
  ⟨fun h1 => add_order_wrong_symbol h1,
   fun h1 h2 => add_order_not_limit h1 h2,
   fun h1 h3 => add_order_not_live h1 h3,
   fun r' h1 h2 h3 hl hne => add_order_dup h1 h2 h3 hl hne,
   fun h1 h2 h3 hl => add_order_idem h1 h2 h3 hl⟩

/-- C1 counterexample: on a reachable state, adding an order whose
symbol differs from the book's raises `ValueError` instead of being
returned as a rejection. -/
theorem C1_wrong_symbol_raises :
    Reachable tB1 [wO1, tO2, { wO1 with symbol := "T", order_id := "z" }] ∧
    OrderBook.add_order tB1
        [wO1, tO2, { wO1 with symbol := "T", order_id := "z" }] 2 =
      (tB1, .error .valueError) :=
  ⟨reach_tB1.step (Step.newOrder _ _ "T" "BUY" "LIMIT" 10 (some 99) "z" 1
      { wO1 with symbol := "T", order_id := "z" } [] rfl),
   rfl⟩

theorem C1_add_rejections_witness :
    OrderBook.add_order wB3 wMem 3 = (wB3, .ok none) ∧
    OrderBook.add_order wB3 wMem 0 = (wB3, .ok (some 0)) := by
  obtain ⟨c1, c2, c3, c4, c5⟩ := C1_add_rejections wB3 wMem 3
  obtain ⟨d1, d2, d3, d4, d5⟩ := C1_add_rejections wB3 wMem 0
  exact ⟨c2 rfl (by decide), d5 rfl rfl (by decide) rfl⟩

/-- C2: refuted by the code — `Order.fill` has no status guard, so a
subsequent `fill` moves a `CANCELLED` order to `FILLED`, violating the
specified terminality of `CANCELLED`. -/
theorem C2_cancelled_then_filled :
    wO1.cancel.status = "CANCELLED" ∧ (wO1.cancel.fill 10).status = "FILLED" :=
  ⟨rfl, rfl⟩

/-- C3: in every reachable book state, a successful `get_best_bid`
returns the price of a best live bid (highest price, ties broken by the
earliest timestamp), `get_best_ask` the price of a best live ask
(lowest price, earliest timestamp on ties), and the pop variants return
such an order itself. -/
theorem C3_price_time_priority (b : OrderBook) (mem : Memory)
    (h : Reachable b mem) :
    (∀ b' q, OrderBook.get_best_bid b mem = (b', .ok (some q)) →
      ∃ r, BestBidChoice b mem r ∧ priceOf mem r = q) ∧
    (∀ b' q, OrderBook.get_best_ask b mem = (b', .ok (some q)) →
      ∃ r, BestAskChoice b mem r ∧ priceOf mem r = q) ∧
    (∀ b' r, OrderBook.pop_best_bid_order b mem = (b', .ok (some r)) →
      BestBidChoice b mem r) ∧
    (∀ b' r, OrderBook.pop_best_ask_order b mem = (b', .ok (some r)) →
      BestAskChoice b mem r) := by
  have hinv := reachable_inv h
  exact ⟨fun b' q hq => best_bid_obs hinv hq,
    fun b' q hq => best_ask_obs hinv hq,
    fun b' r hr => pop_bid_obs hinv hr,
    fun b' r hr => pop_ask_obs hinv hr⟩

theorem C3_price_time_priority_witness :
    ∃ r, BestBidChoice wB3 wMem r ∧ priceOf wMem r = 100 :=
  (C3_price_time_priority wB3 wMem reach_wB3).1 wB3 100 rfl

/-- C4: after `remove_order` cancels an order, any number of further
successful operations never revives it, and every later successful
best/pop call is answered by a live order — never the removed one: the
prices returned by `get_best_bid`/`get_best_ask` belong to live best
orders, and the popped orders are live. -/
theorem C4_lazy_deletion (b : OrderBook) (mem : Memory) (oid : String)
    (r : Nat) (b1 : OrderBook) (mem1 : Memory) (h : Reachable b mem)
    (hrm : OrderBook.remove_order b mem oid = (b1, mem1, some r))
    (b2 : OrderBook) (mem2 : Memory) (hs : Steps b1 mem1 b2 mem2) :
    (memGet mem2 r).status = "CANCELLED" ∧
    (∀ b3 q, OrderBook.get_best_bid b2 mem2 = (b3, .ok (some q)) →
      ∃ r', isLive (memGet mem2 r') ∧ r' ≠ r ∧ BestBidChoice b2 mem2 r' ∧
        priceOf mem2 r' = q) ∧
    (∀ b3 q, OrderBook.get_best_ask b2 mem2 = (b3, .ok (some q)) →
      ∃ r', isLive (memGet mem2 r') ∧ r' ≠ r ∧ BestAskChoice b2 mem2 r' ∧
        priceOf mem2 r' = q) ∧
    (∀ b3 r', OrderBook.pop_best_bid_order b2 mem2 = (b3, .ok (some r')) →
      isLive (memGet mem2 r') ∧ r' ≠ r) ∧
    (∀ b3 r', OrderBook.pop_best_ask_order b2 mem2 = (b3, .ok (some r')) →
      isLive (memGet mem2 r') ∧ r' ≠ r) := by
  have hinv := reachable_inv h
  have hcanc1 : (memGet mem1 r).status = "CANCELLED" := by
    unfold OrderBook.remove_order at hrm
    rcases hx : lookupId b.orders_map oid with _ | r0
    · rw [hx] at hrm
      dsimp only at hrm
      injection hrm with h1 h2
      injection h2 with h2 h3
      exact Option.noConfusion h3
    · rw [hx] at hrm
      dsimp only at hrm
      injection hrm with h1 h2
      injection h2 with h2 h3
      injection h3 with h3
      subst h3
      subst h2
      have hmap := hinv.map_wf (oid, r0) (lookupId_mem hx)
      rw [memGet_set_self _ hmap.1]
      exact cancel_of_live (hinv.mem_wf _ (memGet_mem hmap.1)) hmap.2.2.1
  have hcanc : (memGet mem2 r).status = "CANCELLED" :=
    steps_keeps_cancelled hs hcanc1
  have hreach2 : Reachable b2 mem2 :=
    reachable_steps (h.step (Step.remove _ _ oid _ _ _ hrm)) hs
  have hinv2 := reachable_inv hreach2
  have hlive_ne : ∀ r', isLive (memGet mem2 r') → r' ≠ r := by
    intro r' hl he
    subst he
    rcases hl with hl | hl <;> rw [hcanc] at hl <;> exact absurd hl (by decide)
  refine ⟨hcanc, ?_, ?_, ?_, ?_⟩
  · intro b3 q hq
    obtain ⟨r', hch, hp⟩ := best_bid_obs hinv2 hq
    exact ⟨r', hch.1.1, hlive_ne r' hch.1.1, hch, hp⟩
  · intro b3 q hq
    obtain ⟨r', hch, hp⟩ := best_ask_obs hinv2 hq
    exact ⟨r', hch.1.1, hlive_ne r' hch.1.1, hch, hp⟩
  · intro b3 r' hr
    have hch := pop_bid_obs hinv2 hr
    exact ⟨hch.1.1, hlive_ne r' hch.1.1⟩
  · intro b3 r' hr
    have hch := pop_ask_obs hinv2 hr
    exact ⟨hch.1.1, hlive_ne r' hch.1.1⟩

theorem C4_lazy_deletion_witness :
    (memGet (memSet wMem 1 ((memGet wMem 1).cancel)) 1).status = "CANCELLED" ∧
    ∃ r', isLive (memGet (memSet wMem 1 ((memGet wMem 1).cancel)) r') ∧
      r' ≠ 1 ∧
      BestBidChoice { wB3 with orders_map := eraseId wB3.orders_map "b" }
        (memSet wMem 1 ((memGet wMem 1).cancel)) r' ∧
      priceOf (memSet wMem 1 ((memGet wMem 1).cancel)) r' = 99 := by
  have hc := C4_lazy_deletion wB3 wMem "b" 1
    { wB3 with orders_map := eraseId wB3.orders_map "b" }
    (memSet wMem 1 ((memGet wMem 1).cancel)) reach_wB3 rfl _ _
    (Steps.refl _ _)
  exact ⟨hc.1, hc.2.1 _ 99 rfl⟩

/-- C5: in every reachable book state, every lookup-table entry points
at a live order; every heap entry points at a live order or a stale
one whose status is `FILLED` or `CANCELLED`; and a heap entry's order
is live exactly when it is registered in the lookup table under its id
— the table is authoritative for liveness. -/
theorem C5_liveness_invariant (b : OrderBook) (mem : Memory)
    (h : Reachable b mem) :
    (∀ pr ∈ b.orders_map, isLive (memGet mem pr.2)) ∧
    (∀ e, (e ∈ b.bids ∨ e ∈ b.asks) →
      isLive (memGet mem e.ref) ∨ (memGet mem e.ref).status = "FILLED" ∨
        (memGet mem e.ref).status = "CANCELLED") ∧
    (∀ e, (e ∈ b.bids ∨ e ∈ b.asks) →
      (isLive (memGet mem e.ref) ↔
        lookupId b.orders_map (memGet mem e.ref).order_id = some e.ref)) := by
  have hinv := reachable_inv h
  refine ⟨fun pr hpr => (hinv.map_wf pr hpr).2.2.1, ?_, ?_⟩
  · intro e he
    have hlen : e.ref < mem.length := by
      rcases he with he | he
      · exact (hinv.bids_wf e he).1
      · exact (hinv.asks_wf e he).1
    have hw := hinv.mem_wf _ (memGet_mem hlen)
    rcases hw.2.2.1 with h1 | h1 | h1 | h1
    · exact Or.inl (Or.inl h1)
    · exact Or.inl (Or.inr h1)
    · exact Or.inr (Or.inl h1)
    · exact Or.inr (Or.inr h1)
  · intro e he
    constructor
    · exact hinv.live_in_map e he
    · intro hl
      exact (hinv.map_wf _ (lookupId_mem hl)).2.2.1

theorem C5_liveness_invariant_witness :
    isLive (memGet wMem 0) ∧
    (isLive (memGet wMem 1) ↔
      lookupId wB3.orders_map (memGet wMem 1).order_id = some 1) := by
  obtain ⟨c1, c2, c3⟩ := C5_liveness_invariant wB3 wMem reach_wB3
  exact ⟨c1 ("a", 0) (by decide), c3 ⟨-100, 2, 1⟩ (Or.inl (by decide))⟩

/-- C6: fill monotonicity.  A sequence of positive fills summing to at
least the quantity drives `remaining_quantity` to exactly zero and the
status to `FILLED`; a positive fill ending strictly below the quantity
yields `PARTIALLY_FILLED`; a non-positive fill changes nothing; an
overshooting fill is clamped to the remaining quantity, landing exactly
on the full quantity (never over-filling); and a fill after `is_filled`
leaves `filled_quantity` unchanged. -/
theorem C6_fill_monotonicity :
    (∀ (o : Order) (amts : List Int), o.filled_quantity = 0 →
      0 < o.quantity → o.quantity ≤ amts.sum → (∀ a ∈ amts, 0 < a) →
      (fillAll o amts).remaining_quantity = 0 ∧
        (fillAll o amts).status = "FILLED") ∧
    (∀ (o : Order) (a : Int), OrderWf o → ¬ a ≤ 0 →
      (o.fill a).filled_quantity < o.quantity →
      (o.fill a).status = "PARTIALLY_FILLED") ∧
    (∀ (o : Order) (a : Int), a ≤ 0 → o.fill a = o) ∧
    (∀ (o : Order) (a : Int), 0 < a → o.remaining_quantity < a →
      (o.fill a).filled_quantity = o.quantity) ∧
    (∀ (o : Order) (a : Int), o.filled_quantity ≤ o.quantity →
      o.is_filled → (o.fill a).filled_quantity = o.filled_quantity) := by
  refine ⟨?_, ?_, ?_, ?_, ?_⟩
  · intro o amts h0 hq hsum hpos
    have hfq : (fillAll o amts).filled_quantity = (fillAll o amts).quantity ∧
        (fillAll o amts).status = "FILLED" :=
      @fillAll_reaches amts o (by omega) (by omega) (by omega) hpos
    refine ⟨?_, hfq.2⟩
    unfold Order.remaining_quantity
    omega
  · intro o a hw ha hlt
    exact fill_partial hw ha hlt
  · intro o a ha
    exact fill_nonpos ha
  · intro o a ha hov
    exact fill_clamp ha hov
  · intro o a hfq hf
    exact fill_keeps_filled hfq hf

theorem C6_fill_monotonicity_witness :
    (fillAll wO1 [4, 6]).remaining_quantity = 0 ∧
    (fillAll wO1 [4, 6]).status = "FILLED" ∧
    (wO1.fill 4).status = "PARTIALLY_FILLED" ∧
    wO1.fill 0 = wO1 ∧
    (wO1.fill 20).filled_quantity = wO1.quantity ∧
    ((wO1.fill 10).fill 5).filled_quantity = (wO1.fill 10).filled_quantity := by
  obtain ⟨c1, c2, c3, c4, c5⟩ := C6_fill_monotonicity
  obtain ⟨w1, w2⟩ := c1 wO1 [4, 6] rfl (by decide) (by decide) (by decide)
  exact ⟨w1, w2,
    c2 wO1 4 (construct_wf (show Order.construct "S" "BUY" "LIMIT" 10
      (some 99) "a" 1 = .ok wO1 from rfl)) (by decide) (by decide),
    c3 wO1 0 (by decide),
    c4 wO1 20 (by decide) (by decide),
    c5 (wO1.fill 10) 5 (by decide) (by decide)⟩

/-- C7: `Order.construct` fails with `ValueError` — producing no order
object — exactly when the side is invalid, the order type is invalid,
a LIMIT order has an absent or non-positive price, the quantity is
non-positive, or the symbol is empty; and a MARKET order constructed
with a price succeeds with the price discarded (`price = none`). -/
theorem C7_construct_validation (symbol side order_type : String)
    (quantity : Int) (price : Option ℚ) (order_id : String)
    (timestamp : ℚ) :
    (Order.construct symbol side order_type quantity price order_id
        timestamp = .error .valueError ↔
      (¬ (side = "BUY" ∨ side = "SELL") ∨
       ¬ (order_type = "LIMIT" ∨ order_type = "MARKET") ∨
       (order_type = "LIMIT" ∧
         (price = none ∨ ∃ p, price = some p ∧ p ≤ 0)) ∨
       quantity ≤ 0 ∨ symbol = "")) ∧
    (∀ o, Order.construct symbol side order_type quantity price order_id
        timestamp = .ok o → order_type = "MARKET" → o.price = none) := by
  constructor
  · constructor
    · intro he
      unfold Order.construct at he
      by_cases h1 : ¬ (side = "BUY" ∨ side = "SELL")
      · exact Or.inl h1
      rw [if_neg h1] at he
      by_cases h2 : ¬ (order_type = "LIMIT" ∨ order_type = "MARKET")
      · exact Or.inr (Or.inl h2)
      rw [if_neg h2] at he
      by_cases h3 : order_type = "LIMIT" ∧ price.getD 0 ≤ 0
      · refine Or.inr (Or.inr (Or.inl ⟨h3.1, ?_⟩))
        rcases hp : price with _ | p
        · exact Or.inl rfl
        · refine Or.inr ⟨p, rfl, ?_⟩
          have h6 := h3.2
          rw [hp] at h6
          simpa using h6
      rw [if_neg h3] at he
      dsimp only at he
      by_cases h4 : quantity ≤ 0
      · exact Or.inr (Or.inr (Or.inr (Or.inl h4)))
      rw [if_neg h4] at he
      by_cases h5 : symbol = ""
      · exact Or.inr (Or.inr (Or.inr (Or.inr h5)))
      rw [if_neg h5] at he
      exact absurd he (by simp)
    · intro hd
      unfold Order.construct
      by_cases h1 : ¬ (side = "BUY" ∨ side = "SELL")
      · rw [if_pos h1]
      rw [if_neg h1]
      by_cases h2 : ¬ (order_type = "LIMIT" ∨ order_type = "MARKET")
      · rw [if_pos h2]
      rw [if_neg h2]
      by_cases h3 : order_type = "LIMIT" ∧ price.getD 0 ≤ 0
      · rw [if_pos h3]
      rw [if_neg h3]
      dsimp only
      by_cases h4 : quantity ≤ 0
      · rw [if_pos h4]
      rw [if_neg h4]
      by_cases h5 : symbol = ""
      · rw [if_pos h5]
      rw [if_neg h5]
      exfalso
      rcases hd with h | h | ⟨hl, hp⟩ | h | h
      · exact h1 h
      · exact h2 h
      · apply h3
        refine ⟨hl, ?_⟩
        rcases hp with hp | ⟨p, hp, hp0⟩
        · rw [hp]
          simp
        · rw [hp]
          simpa using hp0
      · exact h4 h
      · exact h5 h
  · intro o ho hm
    unfold Order.construct at ho
    rw [hm] at ho
    by_cases h1 : ¬ (side = "BUY" ∨ side = "SELL")
    · rw [if_pos h1] at ho
      exact absurd ho (by simp)
    rw [if_neg h1] at ho
    rw [if_neg (show ¬¬("MARKET" = "LIMIT" ∨ "MARKET" = "MARKET") by
      decide)] at ho
    rw [if_neg (show ¬("MARKET" = "LIMIT" ∧ price.getD 0 ≤ 0) from
      fun hc => absurd hc.1 (by decide))] at ho
    dsimp only at ho
    by_cases h4 : quantity ≤ 0
    · rw [if_pos h4] at ho
      exact absurd ho (by simp)
    rw [if_neg h4] at ho
    by_cases h5 : symbol = ""
    · rw [if_pos h5] at ho
      exact absurd ho (by simp)
    rw [if_neg h5] at ho
    injection ho with ho
    rw [← ho]
    dsimp only
    rw [if_pos rfl]

theorem C7_construct_validation_witness :
    Order.construct "S" "BUY" "LIMIT" 10 (some 0) "x" 1 =
      .error .valueError ∧
    Order.construct "S" "BUY" "MARKET" 10 (some 5) "y" 2 =
      .ok { symbol := "S", side := "BUY", order_type := "MARKET",
            quantity := 10, price := none, order_id := "y", timestamp := 2,
            filled_quantity := 0, status := "OPEN" } ∧
    ({ symbol := "S", side := "BUY", order_type := "MARKET",
       quantity := 10, price := none, order_id := "y", timestamp := 2,
       filled_quantity := 0, status := "OPEN" } : Order).price = none :=
  ⟨(C7_construct_validation "S" "BUY" "LIMIT" 10 (some 0) "x" 1).1.mpr
      (Or.inr (Or.inr (Or.inl ⟨rfl, Or.inr ⟨0, rfl, le_refl 0⟩⟩))),
   rfl,
   (C7_construct_validation "S" "BUY" "MARKET" 10 (some 5) "y" 2).2 _ rfl rfl⟩

/-- C8: rejected `add_order` calls (a MARKET order, a wrong-symbol
order, or a duplicate id bound to a different object) leave the book
exactly as it was: the returned book is the argument book, so the
lookup-table size and both queue sizes are unchanged. -/
theorem C8_rejection_frame (b : OrderBook) (mem : Memory) (r : Nat)
    (b' : OrderBook) (res : Except PyErr (Option Nat))
    (h : OrderBook.add_order b mem r = (b', res))
    (hrej : (memGet mem r).order_type = "MARKET" ∨
      (memGet mem r).symbol ≠ b.symbol ∨
      (∃ r', lookupId b.orders_map (memGet mem r).order_id = some r' ∧
        r' ≠ r)) :
    b' = b ∧ b'.orders_map.length = b.orders_map.length ∧
      b'.bids.length = b.bids.length ∧ b'.asks.length = b.asks.length := by
  have hb : (OrderBook.add_order b mem r).1 = b := by
    by_cases h1 : (memGet mem r).symbol = b.symbol
    · by_cases h2 : (memGet mem r).order_type = "LIMIT"
      · by_cases h3 : isLive (memGet mem r)
        · rcases hrej with hm | hs | ⟨r', hl, hne⟩
          · rw [h2] at hm
            exact absurd hm (by decide)
          · exact absurd h1 hs
          · rw [add_order_dup h1 h2 h3 hl hne]
        · rw [add_order_not_live h1 h3]
      · rw [add_order_not_limit h1 h2]
    · rw [add_order_wrong_symbol (fun hc => h1 hc)]
  rw [h] at hb
  dsimp only at hb
  subst hb
  exact ⟨rfl, rfl, rfl, rfl⟩

theorem C8_rejection_frame_witness :
    wB3 = wB3 ∧ wB3.orders_map.length = wB3.orders_map.length ∧
      wB3.bids.length = wB3.bids.length ∧
      wB3.asks.length = wB3.asks.length :=
  C8_rejection_frame wB3 wMem 3 wB3 (.ok none) rfl (Or.inl rfl)

/-- C9: `remove_order` on a live id erases the id from the lookup
table, cancels the order object (status `CANCELLED`), leaves both heaps
physically untouched, and returns the order; on an unknown id it
returns `none` and changes nothing; and `cancel` on an already
cancelled or fully filled order is a no-op that does not raise. -/
theorem C9_remove_semantics (b : OrderBook) (mem : Memory) (oid : String)
    (h : Reachable b mem) :
    (∀ r, lookupId b.orders_map oid = some r →
      OrderBook.remove_order b mem oid =
        ({ b with orders_map := eraseId b.orders_map oid },
          memSet mem r ((memGet mem r).cancel), some r) ∧
      lookupId (eraseId b.orders_map oid) oid = none ∧
      (memGet (memSet mem r ((memGet mem r).cancel)) r).status =
        "CANCELLED") ∧
    (lookupId b.orders_map oid = none →
      OrderBook.remove_order b mem oid = (b, mem, none)) ∧
    (∀ o : Order, o.status = "CANCELLED" ∨ o.is_filled → o.cancel = o) := by
  have hinv := reachable_inv h
  refine ⟨?_, ?_, fun o ho => cancel_terminal ho⟩
  · intro r hl
    have heq : OrderBook.remove_order b mem oid =
        ({ b with orders_map := eraseId b.orders_map oid },
          memSet mem r ((memGet mem r).cancel), some r) := by
      unfold OrderBook.remove_order
      rw [hl]
    refine ⟨heq, lookupId_eraseId_self hinv.map_keys_nodup, ?_⟩
    have hmap := hinv.map_wf (oid, r) (lookupId_mem hl)
    rw [memGet_set_self _ hmap.1]
    exact cancel_of_live (hinv.mem_wf _ (memGet_mem hmap.1)) hmap.2.2.1
  · intro hl
    unfold OrderBook.remove_order
    rw [hl]

theorem C9_remove_semantics_witness :
    OrderBook.remove_order wB3 wMem "b" =
      ({ wB3 with orders_map := eraseId wB3.orders_map "b" },
        memSet wMem 1 ((memGet wMem 1).cancel), some 1) ∧
    lookupId (eraseId wB3.orders_map "b") "b" = none ∧
    (memGet (memSet wMem 1 ((memGet wMem 1).cancel)) 1).status =
      "CANCELLED" :=
  (C9_remove_semantics wB3 wMem "b" reach_wB3).1 1 rfl

/-- C10: `add_order` is not total — in a reachable state holding a live
bid, adding a second live bid of the same book with exactly equal price
and timestamp raises `TypeError`, because the heap tuple comparison
falls through to the order objects. -/
theorem C10_tie_typeerror :
    Reachable tB1 tMem ∧
    (memGet tMem 1).price = (memGet tMem 0).price ∧
    (memGet tMem 1).timestamp = (memGet tMem 0).timestamp ∧
    (memGet tMem 1).side = (memGet tMem 0).side ∧
    isLive (memGet tMem 1) ∧
    (OrderBook.add_order tB1 tMem 1).2 = .error .typeError :=
  ⟨reach_tB1, rfl, rfl, rfl, Or.inl rfl, rfl⟩
